import Mathlib

/-!
Verification of the kustomap dependency-discovery core.

The development shallowly embeds the program's string algorithms and the
crawl/graph pipeline:

* `internal/repository/resolver.go` — `findLongestMatch` (branch/path
  disambiguation over a branch/tag name list);
* `src/services/DependencyResolver.ts` — the graph builder
  (`resolvePath`, `processReference`, `buildEdgesForNode`,
  `correctNodeTypes`, `detectCycles`) and the crawler (`parseGitUrl`,
  `normalizeUrl`, `joinPaths`, `resolveUrl`, `isYamlFile`,
  `crawlKustomization`, `crawlFromOverlay`);
* the Go reference parser, whose implementation file is absent from the
  source tree, is modelled from the specification text and its tests.

Strings are modelled as `List Char` (`Str`), which keeps every operation
computable and kernel-evaluable.  JavaScript / Go string primitives used by
the code (`split`, `join`, `Trim`, `TrimPrefix`, `endsWith`, …) are defined
below with their exact library semantics.
-/

namespace Kustomap

/-- Strings as lists of characters. -/
abbrev Str := List Char

/-- Convert a Lean string literal to the `Str` model. -/
def lit (s : String) : Str := s.data

/-- JavaScript `s.split(sep)` / Go `strings.Split` for a one-character
separator: `split '/' "" = [""]`, `split '/' "a/" = ["a", ""]`. -/
def splitC (sep : Char) : Str → List Str
  | [] => [[]]
  | c :: rest =>
    if c = sep then [] :: splitC sep rest
    else
      match splitC sep rest with
      | [] => [[c]]
      | s :: ss => (c :: s) :: ss

/-- JavaScript `parts.join(sep)` for a one-character separator. -/
def joinC (sep : Char) : List Str → Str
  | [] => []
  | [s] => s
  | s :: ss => s ++ sep :: joinC sep ss

/-- Go `strings.Trim(s, cutset)` for a one-character cutset: remove all
leading and all trailing occurrences of `c`. -/
def trimC (c : Char) (s : Str) : Str :=
  ((s.dropWhile (· = c)).reverse.dropWhile (· = c)).reverse

/-- Go `strings.TrimPrefix(s, pre)`: drop `pre` when it is a prefix of `s`,
otherwise return `s` unchanged. -/
def stripOnePre (pre s : Str) : Str :=
  if pre.isPrefixOf s then s.drop pre.length else s

/-- Strip a suffix when present (used for the `.git` repository suffix). -/
def stripOneSuf (suf s : Str) : Str :=
  if suf.isSuffixOf s then s.take (s.length - suf.length) else s

/-! ## Branch/path resolver — `findLongestMatch`
(`internal/repository/resolver.go`, lines 157-184)

```go
func findLongestMatch(branches []string, urlPath string) (string, string, error) {
    urlPath = strings.Trim(urlPath, "/")
    var longestMatch string
    var longestMatchLen int
    for _, branch := range branches {
        if strings.HasPrefix(urlPath, branch) {
            if len(branch) > longestMatchLen {
                longestMatch = branch
                longestMatchLen = len(branch)
            }
        }
    }
    if longestMatch == "" {
        return "", "", fmt.Errorf(...)
    }
    remainingPath := strings.TrimPrefix(urlPath, longestMatch)
    remainingPath = strings.TrimPrefix(remainingPath, "/")
    return longestMatch, remainingPath, nil
}
```
-/

/-- The `for branch := range branches` loop of `findLongestMatch`: the
accumulator is the pair `(longestMatch, longestMatchLen)`. -/
def flmLoop (urlPath : Str) : List Str → Str × Nat → Str × Nat
  | [], acc => acc
  | b :: bs, acc =>
    flmLoop urlPath bs
      (if b.isPrefixOf urlPath && decide (acc.2 < b.length) then (b, b.length) else acc)

/-- `findLongestMatch`: `none` models the Go error return. -/
def findLongestMatch (branches : List Str) (urlPath0 : Str) : Option (Str × Str) :=
  let urlPath := trimC '/' urlPath0
  let acc := flmLoop urlPath branches ([], 0)
  if acc.1 = [] then none
  else some (acc.1, stripOnePre ['/'] (stripOnePre acc.1 urlPath))

/-! ## Data model — `src/types/kustomize.types`

`KustomizeNode`, `DependencyEdge` and `KustomizeGraph` as used by
`DependencyResolver.ts` and `GitCrawler`.  The JavaScript `Map` keyed by
node path is modelled as an association list in insertion order
(`Map.set` overwrites in place, `Map.get`/iteration follow insertion
order). -/

/-- The declared reference kinds, also used as node roles
(`'resource' | 'base' | 'component'`). -/
inductive RefKind where
  | resource
  | base
  | component
deriving DecidableEq, Repr

/-- The fields of a parsed kustomization document that the builder and the
crawler read (`KustomizationYaml`).  A missing array and an empty array
behave identically in the code (`if (xs && xs.length > 0)`), so optional
arrays are modelled as lists defaulting to `[]`. -/
structure Kustomization where
  apiVersion : Option Str := none
  kind : Option Str := none
  resources : List Str := []
  bases : List Str := []
  components : List Str := []
deriving DecidableEq, Repr

/-- `KustomizeNode`. -/
structure KustomizeNode where
  id : Str
  path : Str
  type : RefKind
  kustomizationContent : Kustomization
  isRemote : Bool
  remoteUrl : Option Str := none
  loaded : Bool
  error : Option Str := none
deriving DecidableEq, Repr

/-- `DependencyEdge`. -/
structure DependencyEdge where
  id : Str
  source : Str
  target : Str
  type : RefKind
  label : Str
deriving DecidableEq, Repr

/-- The node index of a graph: a JavaScript `Map<string, KustomizeNode>`
keyed by node path, in insertion order. -/
abbrev NodeMap := List (Str × KustomizeNode)

/-- `KustomizeGraph`. -/
structure KustomizeGraph where
  nodes : NodeMap
  edges : List DependencyEdge
  rootPath : Str
deriving DecidableEq, Repr

/-- `Map.get`. -/
def mapGet (m : NodeMap) (k : Str) : Option KustomizeNode :=
  (m.find? (fun pr => pr.1 == k)).map (·.2)

/-- `Map.set`: overwrite in place when the key exists (keeping its
position), otherwise append. -/
def mapSet (m : NodeMap) (k : Str) (v : KustomizeNode) : NodeMap :=
  if (m.find? (fun pr => pr.1 == k)).isSome then
    m.map (fun pr => if pr.1 == k then (k, v) else pr)
  else m ++ [(k, v)]

/-- Decimal rendering of a counter, for `node-${n}` style ids. -/
def natStr (n : Nat) : Str := (toString n).data

/-! ## Path joining — `DependencyResolver.resolvePath` (lines 253-268) and
`GitCrawler.joinPaths` (lines 599-614) -/

/-- The segment computation of `resolvePath`: split base and relative
paths on `/`, drop empty segments, then apply `..` (pop) and `.` (no-op)
segment-wise.  `parts.pop()` on an empty JavaScript array is a no-op. -/
def resolvePathSegs (basePath relativePath : Str) : List Str :=
  let parts :=
    if basePath = lit "." then []
    else (splitC '/' basePath).filter (fun p => !(p == []))
  let relParts := (splitC '/' relativePath).filter (fun p => !(p == []))
  relParts.foldl
    (fun ps part =>
      if part = lit ".." then ps.dropLast
      else if part ≠ lit "." then ps ++ [part] else ps)
    parts

/-- `DependencyResolver.resolvePath`: `parts.join('/') || '.'`. -/
def resolvePath (basePath relativePath : Str) : Str :=
  let result := joinC '/' (resolvePathSegs basePath relativePath)
  if result = [] then lit "." else result

/-- The segment computation of `joinPaths`: both sides drop empty and `.`
segments up front, then `..` pops (no-op on empty) and anything else is
pushed. -/
def joinPathsSegs (basePath relativePath : Str) : List Str :=
  let baseParts := (splitC '/' basePath).filter (fun p => !(p == []) && !(p == lit "."))
  let relativeParts := (splitC '/' relativePath).filter (fun p => !(p == []) && !(p == lit "."))
  relativeParts.foldl
    (fun ps part => if part = lit ".." then ps.dropLast else ps ++ [part])
    baseParts

/-- `GitCrawler.joinPaths`: `baseParts.join('/') || '.'`. -/
def joinPaths (basePath relativePath : Str) : Str :=
  let r := joinC '/' (joinPathsSegs basePath relativePath)
  if r = [] then lit "." else r

/-! ## Graph builder — `DependencyResolver` (lines 7-302) -/

/-- `s.endsWith(suf)`. -/
def endsWithS (suf s : Str) : Bool := suf.isSuffixOf s

/-- `DependencyResolver.isRemoteUrl`. -/
def isRemoteUrl (path : Str) : Bool :=
  (lit "http://").isPrefixOf path || (lit "https://").isPrefixOf path

/-- `DependencyResolver.isLocalPath`. -/
def isLocalPath (path : Str) : Bool := !(isRemoteUrl path)

/-- Attempt to match the unanchored regex
`github\.com\/[^\/]+\/[^\/]+\/(.+)` at the head of `s`
(`extractDisplayNameFromUrl`): literal `github.com/`, two nonempty
slash-free segments, a slash, then a nonempty remainder (the capture). -/
def matchDisplayAt (s : Str) : Option Str :=
  if (lit "github.com/").isPrefixOf s then
    let r1 := s.drop (lit "github.com/").length
    let seg1 := r1.takeWhile (· ≠ '/')
    let r2 := r1.dropWhile (· ≠ '/')
    if seg1 = [] then none
    else
      match r2 with
      | '/' :: r3 =>
        let seg2 := r3.takeWhile (· ≠ '/')
        let r4 := r3.dropWhile (· ≠ '/')
        if seg2 = [] then none
        else
          match r4 with
          | '/' :: rest => if rest = [] then none else some rest
          | _ => none
      | _ => none
  else none

/-- Scan for the leftmost match of the display-name regex (JavaScript
`String.match` with an unanchored pattern). -/
def scanDisplay : Str → Option Str
  | [] => none
  | c :: rest =>
    match matchDisplayAt (c :: rest) with
    | some r => some r
    | none => scanDisplay rest

/-- `DependencyResolver.extractDisplayNameFromUrl`: strip the query, try
the GitHub pattern, otherwise fall back to the last two `/`-segments. -/
def extractDisplayNameFromUrl (url : Str) : Str :=
  let cleanUrl := (splitC '?' url).headD []
  match scanDisplay cleanUrl with
  | some m => m
  | none =>
    let parts := splitC '/' cleanUrl
    joinC '/' (parts.drop (parts.length - 2))

/-- `DependencyResolver.extractLabelFromUrl`: the last `/`-segment with
its query stripped, or `remote` when that is empty. -/
def extractLabelFromUrl (url : Str) : Str :=
  let parts := splitC '/' url
  let lastPart := (splitC '?' (parts.getLastD [])).headD []
  if lastPart = [] then lit "remote" else lastPart

/-- `DependencyResolver.processReference` (lines 117-210).  State is the
triple (node map, edge list, edge counter); the function returns the
updated state.  The remote branch looks for an existing node carrying the
exact reference as `remoteUrl` (first in map order, like the JS
`for..of` with `break`) and otherwise synthesizes a virtual remote node;
the local branch resolves the path and synthesizes a missing node when no
node sits at the resolved path. -/
def processReference (sourceNode : KustomizeNode) (reference : Str)
    (type : RefKind) (nodeMap : NodeMap) (edges : List DependencyEdge)
    (edgeCounter : Nat) : NodeMap × List DependencyEdge × Nat :=
  if isRemoteUrl reference then
    let remoteNodeId := lit "remote-" ++ natStr edgeCounter
    let remoteDisplayName := extractDisplayNameFromUrl reference
    let targetNodeId :=
      match nodeMap.find? (fun pr => pr.2.remoteUrl == some reference) with
      | some pr => pr.2.id
      | none => remoteNodeId
    let nodeMap' :=
      if targetNodeId = remoteNodeId then
        mapSet nodeMap remoteDisplayName
          { id := remoteNodeId
            path := remoteDisplayName
            type := if type = RefKind.component then RefKind.component else RefKind.base
            kustomizationContent := {}
            isRemote := true
            remoteUrl := some reference
            loaded := false }
      else nodeMap
    (nodeMap',
     edges ++ [{ id := lit "edge-" ++ natStr edgeCounter
                 source := sourceNode.id
                 target := targetNodeId
                 type := type
                 label := extractLabelFromUrl reference }],
     edgeCounter + 1)
  else if isLocalPath reference then
    let resolvedPath := resolvePath sourceNode.path reference
    match mapGet nodeMap resolvedPath with
    | some targetNode =>
      (nodeMap,
       edges ++ [{ id := lit "edge-" ++ natStr edgeCounter
                   source := sourceNode.id
                   target := targetNode.id
                   type := type
                   label := reference }],
       edgeCounter + 1)
    | none =>
      let missingNodeId := lit "missing-" ++ natStr edgeCounter
      let missingNode : KustomizeNode :=
        { id := missingNodeId
          path := resolvedPath
          type := RefKind.base
          kustomizationContent := {}
          isRemote := false
          loaded := false }
      (mapSet nodeMap resolvedPath missingNode,
       edges ++ [{ id := lit "edge-" ++ natStr edgeCounter
                   source := sourceNode.id
                   target := missingNodeId
                   type := type
                   label := reference }],
       edgeCounter + 1)
  else (nodeMap, edges, edgeCounter)

/-- `DependencyResolver.buildEdgesForNode` (lines 79-115): `resources`
entries ending in `.yaml`/`.yml` are skipped; every `bases` and
`components` entry is processed. -/
def buildEdgesForNode (node : KustomizeNode) (nodeMap : NodeMap)
    (edges : List DependencyEdge) (edgeCounter : Nat) :
    NodeMap × List DependencyEdge × Nat :=
  let st1 := node.kustomizationContent.resources.foldl
    (fun (st : NodeMap × List DependencyEdge × Nat) resource =>
      if !(endsWithS (lit ".yaml") resource) && !(endsWithS (lit ".yml") resource) then
        processReference node resource RefKind.resource st.1 st.2.1 st.2.2
      else st)
    (nodeMap, edges, edgeCounter)
  let st2 := node.kustomizationContent.bases.foldl
    (fun (st : NodeMap × List DependencyEdge × Nat) base =>
      processReference node base RefKind.base st.1 st.2.1 st.2.2)
    st1
  node.kustomizationContent.components.foldl
    (fun (st : NodeMap × List DependencyEdge × Nat) component =>
      processReference node component RefKind.component st.1 st.2.1 st.2.2)
    st2

/-- The incoming reference kinds of a node id: the contents of the
`nodeReferenceTypes` set for that target (`correctNodeTypes`, lines
49-56).  The JS `Set` is only ever queried for membership, so the plain
list of kinds of edges targeting the id is an equivalent representation. -/
def kindsAt (edges : List DependencyEdge) (tid : Str) : List RefKind :=
  (edges.filter (fun e => e.target == tid)).map (·.type)

/-- The role-correction applied to one node given the set of incoming
reference kinds (`correctNodeTypes`, lines 63-75): priority
`component > base > resource`, keeping the crawl-time role when only
`resource` (or nothing) points at the node. -/
def applyKindCorrection (kinds : List RefKind) (n : KustomizeNode) : KustomizeNode :=
  if RefKind.component ∈ kinds then { n with type := RefKind.component }
  else if RefKind.base ∈ kinds then { n with type := RefKind.base }
  else n

/-- Update the first entry of the map satisfying `p` (the JS
`Array.from(nodeMap.values()).find(...)` followed by in-place mutation). -/
def updateFirstP (p : Str × KustomizeNode → Bool)
    (f : Str × KustomizeNode → Str × KustomizeNode) : NodeMap → NodeMap
  | [] => []
  | x :: xs => if p x then f x :: xs else x :: updateFirstP p f xs

/-- One target entry of the `nodeReferenceTypes` iteration: correct the
node whose id is `tid` using its incoming-kind set. -/
def nodeTypeStep (edges : List DependencyEdge) (tid : Str)
    (pr : Str × KustomizeNode) : Str × KustomizeNode :=
  (pr.1, applyKindCorrection (kindsAt edges tid) pr.2)

/-- `DependencyResolver.correctNodeTypes` (lines 42-77).  The JS code
iterates the entries of a `Map` grouping edge targets to their incoming
kind sets (unique targets, first-occurrence order) and mutates the first
node whose id matches.  Folding over the raw target list of the edge list
is an equivalent formulation: the per-target update is idempotent and
distinct targets touch distinct nodes — `correctNodeTypes_spec` proves
the pass equal to the pointwise correction, which is also what the
grouped iteration computes. -/
def correctNodeTypes (nodeMap : NodeMap) (edges : List DependencyEdge) : NodeMap :=
  (edges.map (·.target)).foldl
    (fun m tid =>
      updateFirstP (fun pr => pr.2.id == tid) (nodeTypeStep edges tid) m)
    nodeMap

/-- `DependencyResolver.buildGraph` (lines 10-37). -/
def buildGraph (nodes : List KustomizeNode) : KustomizeGraph :=
  let nodeMap := nodes.foldl (fun m n => mapSet m n.path n) []
  let built := nodes.foldl
    (fun (st : NodeMap × List DependencyEdge × Nat) n =>
      buildEdgesForNode n st.1 st.2.1 st.2.2)
    (nodeMap, [], 0)
  { nodes := correctNodeTypes built.1 built.2.1
    edges := built.2.1
    rootPath := ((nodes.head?).map (·.path)).getD [] }

/-- A concrete source node used by witnesses. -/
def cSrcNode : KustomizeNode :=
  { id := lit "node-0", path := lit ".", type := RefKind.resource,
    kustomizationContent := {}, isRemote := false, loaded := true }

/-! ## Cycle detection — `DependencyResolver.detectCycles` (lines 270-301)

```js
detectCycles(graph) {
  const cycles = []; const visited = new Set(); const recStack = new Set();
  const dfs = (nodeId, path) => {
    visited.add(nodeId); recStack.add(nodeId); path.push(nodeId);
    const outEdges = graph.edges.filter(e => e.source === nodeId);
    for (const edge of outEdges) {
      if (!visited.has(edge.target)) dfs(edge.target, [...path]);
      else if (recStack.has(edge.target)) {
        const cycleStart = path.indexOf(edge.target);
        cycles.push([...path.slice(cycleStart), edge.target]);
      }
    }
    recStack.delete(nodeId);
  };
  for (const [, node] of graph.nodes)
    if (!visited.has(node.id)) dfs(node.id, []);
  return cycles;
}
```

The JS recursion needs no fuel: every `dfs` call is made on an id not yet
visited, so the recursion depth is bounded by the number of distinct ids
occurring in the node list and the edge targets.  The Lean model takes an
explicit fuel of `|nodes| + |edges| + 1` per root, which that bound can
never exhaust; with insufficient fuel the model could only drop cycles,
never invent them, so the soundness results hold for every fuel. -/

/-- The DFS traversal state: the `visited` set, the recursion-stack set
and the accumulated cycle list. -/
structure DfsSt where
  visited : List Str
  recStack : List Str
  cycles : List (List Str)
deriving DecidableEq, Repr

/-- JavaScript `path.indexOf(a)` for a member `a` (first index; when `a`
is absent it returns the length — the JS `-1` case is proved unreachable
at the one call site). -/
def idxOf (a : Str) : List Str → Nat
  | [] => 0
  | x :: xs => if x == a then 0 else idxOf a xs + 1

/-- The body of the `for (const edge of outEdges)` loop of `dfs`:
`recurse` is the recursive `dfs` call (at one fuel less in the model). -/
def dfsStep (recurse : Str -> DfsSt -> DfsSt) (path : List Str)
    (st : DfsSt) (e : DependencyEdge) : DfsSt :=
  if !(st.visited.contains e.target) then
    recurse e.target st
  else if st.recStack.contains e.target then
    { st with cycles := st.cycles ++ [path.drop (idxOf e.target path) ++ [e.target]] }
  else st

/-- One `dfs(nodeId, path)` call (structural on the fuel, so that the
model evaluates inside the kernel). -/
def dfsVisit : Nat -> KustomizeGraph -> Str -> List Str -> DfsSt -> DfsSt
  | 0, _, _, _, st => st
  | fuel + 1, g, nodeId, path0, st =>
    let st1 : DfsSt :=
      { st with visited := nodeId :: st.visited, recStack := nodeId :: st.recStack }
    let path := path0 ++ [nodeId]
    let st2 := (g.edges.filter (fun e => e.source == nodeId)).foldl
      (dfsStep (fun t s => dfsVisit fuel g t path s) path) st1
    { st2 with recStack := st2.recStack.erase nodeId }

/-- The root loop of `detectCycles` over the node map entries. -/
def detectLoop (g : KustomizeGraph) : List (Str × KustomizeNode) → DfsSt → DfsSt
  | [], st => st
  | (_, node) :: rest, st =>
    detectLoop g rest
      (if !(st.visited.contains node.id) then
        dfsVisit (g.nodes.length + g.edges.length + 1) g node.id [] st
      else st)

/-- `DependencyResolver.detectCycles`. -/
def detectCycles (g : KustomizeGraph) : List (List Str) :=
  (detectLoop g g.nodes { visited := [], recStack := [], cycles := [] }).cycles

/-- `a` and `b` are joined by a directed edge of the graph. -/
def isEdge (g : KustomizeGraph) (a b : Str) : Prop :=
  ∃ e ∈ g.edges, e.source = a ∧ e.target = b

/-- A genuine elementary cycle witness: at least two entries, the first
entry equals the last, and consecutive entries are joined by edges. -/
def realCycle (g : KustomizeGraph) (c : List Str) : Prop :=
  2 ≤ c.length ∧ c.head? = c.getLast? ∧ List.Chain' (isEdge g) c

/-- A graph with no cycle at all. -/
def acyclicG (g : KustomizeGraph) : Prop := ∀ c : List Str, ¬ realCycle g c

/-- All accumulated cycles are genuine cycles of the graph. -/
def soundCycles (g : KustomizeGraph) (cs : List (List Str)) : Prop :=
  ∀ c ∈ cs, realCycle g c

/-- A concrete plain node used by the synthetic cycle graphs. -/
def cNode (s : String) : KustomizeNode :=
  { id := lit s, path := lit s, type := RefKind.resource,
    kustomizationContent := {}, isRemote := false, loaded := true }

/-- A concrete edge used by the synthetic cycle graphs. -/
def cEdge (i s t : String) : DependencyEdge :=
  { id := lit i, source := lit s, target := lit t,
    type := RefKind.resource, label := lit "" }

/-- The synthetic graph with edges A→B→C→A. -/
def abcGraph : KustomizeGraph :=
  { nodes := [(lit "A", cNode "A"), (lit "B", cNode "B"), (lit "C", cNode "C")],
    edges := [cEdge "e0" "A" "B", cEdge "e1" "B" "C", cEdge "e2" "C" "A"],
    rootPath := lit "A" }

/-- The empty graph. -/
def emptyGraph : KustomizeGraph := { nodes := [], edges := [], rootPath := [] }

/-- A one-node graph with a self-loop. -/
def selfLoopGraph : KustomizeGraph :=
  { nodes := [(lit "A", cNode "A")], edges := [cEdge "e0" "A" "A"],
    rootPath := lit "A" }

/-! ## Git crawler — `GitCrawler` (lines 316-1053)

URL strings are parsed by hand-rolled deterministic parsers mirroring the
unanchored JS regexes; on the URL shapes the crawler handles, an
unanchored match can only succeed at the start of the string (the
patterns begin with `https?://`), so the model anchors them. -/

/-- Upper-case hex digit of a value below 16. -/
def hexDigitChar (n : Nat) : Char :=
  if n < 10 then Char.ofNat ('0'.toNat + n) else Char.ofNat ('A'.toNat + n - 10)

/-- Value of a hex digit character, by code point: 48-57 are the decimal
digits, 65-70 the uppercase and 97-102 the lowercase hex letters. -/
def hexValue (c : Char) : Option Nat :=
  let n := c.toNat
  if 48 ≤ n ∧ n ≤ 57 then some (n - 48)
  else if 65 ≤ n ∧ n ≤ 70 then some (n - 55)
  else if 97 ≤ n ∧ n ≤ 102 then some (n - 87)
  else none

/-- UTF-8 bytes of a code point. -/
def utf8Bytes (n : Nat) : List Nat :=
  if n < 0x80 then [n]
  else if n < 0x800 then [0xC0 + n / 0x40, 0x80 + n % 0x40]
  else if n < 0x10000 then
    [0xE0 + n / 0x1000, 0x80 + (n / 0x40) % 0x40, 0x80 + n % 0x40]
  else
    [0xF0 + n / 0x40000, 0x80 + (n / 0x1000) % 0x40,
     0x80 + (n / 0x40) % 0x40, 0x80 + n % 0x40]

/-- The characters `encodeURIComponent` leaves unescaped. -/
def uriUnreserved (c : Char) : Bool :=
  ('A' ≤ c && c ≤ 'Z') || ('a' ≤ c && c ≤ 'z') || ('0' ≤ c && c ≤ '9') ||
  c == '-' || c == '_' || c == '.' || c == '!' || c == '~' || c == '*' ||
  c == '\'' || c == '(' || c == ')'

/-- Percent-escape one character (UTF-8, upper-case hex). -/
def encChar (c : Char) : Str :=
  if uriUnreserved c then [c]
  else ((utf8Bytes c.toNat).map
    (fun b => ['%', hexDigitChar (b / 16), hexDigitChar (b % 16)])).flatten

/-- JavaScript `encodeURIComponent`. -/
def encodeURIComponent (s : Str) : Str := (s.map encChar).flatten

/-- Percent-decode to a byte list; `none` models the JS `URIError`. -/
def percentBytes : Str → Option (List Nat)
  | [] => some []
  | '%' :: c1 :: c2 :: rest =>
    match hexValue c1, hexValue c2 with
    | some h, some l => (percentBytes rest).map (fun bs => (h * 16 + l) :: bs)
    | _, _ => none
  | '%' :: _ => none
  | c :: rest => (percentBytes rest).map (fun bs => utf8Bytes c.toNat ++ bs)

/-- Decode a UTF-8 byte list; `none` models the JS `URIError` on
malformed, overlong, surrogate or out-of-range sequences. -/
def utf8Decode : List Nat → Option Str
  | [] => some []
  | b :: rest =>
    if b < 0x80 then (utf8Decode rest).map (fun s => Char.ofNat b :: s)
    else if 0xC0 ≤ b ∧ b < 0xE0 then
      match rest with
      | b1 :: rest' =>
        if 0x80 ≤ b1 ∧ b1 < 0xC0 then
          let n := (b - 0xC0) * 0x40 + (b1 - 0x80)
          if n < 0x80 then none
          else (utf8Decode rest').map (fun s => Char.ofNat n :: s)
        else none
      | _ => none
    else if 0xE0 ≤ b ∧ b < 0xF0 then
      match rest with
      | b1 :: b2 :: rest' =>
        if (0x80 ≤ b1 ∧ b1 < 0xC0) ∧ (0x80 ≤ b2 ∧ b2 < 0xC0) then
          let n := (b - 0xE0) * 0x1000 + (b1 - 0x80) * 0x40 + (b2 - 0x80)
          if n < 0x800 ∨ (0xD800 ≤ n ∧ n ≤ 0xDFFF) then none
          else (utf8Decode rest').map (fun s => Char.ofNat n :: s)
        else none
      | _ => none
    else if 0xF0 ≤ b ∧ b < 0xF8 then
      match rest with
      | b1 :: b2 :: b3 :: rest' =>
        if (0x80 ≤ b1 ∧ b1 < 0xC0) ∧ (0x80 ≤ b2 ∧ b2 < 0xC0) ∧
            (0x80 ≤ b3 ∧ b3 < 0xC0) then
          let n := (b - 0xF0) * 0x40000 + (b1 - 0x80) * 0x1000 +
            (b2 - 0x80) * 0x40 + (b3 - 0x80)
          if n < 0x10000 ∨ 0x10FFFF < n then none
          else (utf8Decode rest').map (fun s => Char.ofNat n :: s)
        else none
      | _ => none
    else none

/-- JavaScript `decodeURIComponent`. -/
def decodeURIComponent (s : Str) : Option Str :=
  match percentBytes s with
  | none => none
  | some bs => utf8Decode bs

/-- The Git provider of a parsed URL. -/
inductive Provider where
  | github
  | gitlab
deriving DecidableEq, Repr

/-- `GitUrlComponents` (`DependencyResolver.ts`, lines 307-314). -/
structure GitUrlComponents where
  provider : Provider
  host : Str
  owner : Str
  repo : Str
  ref : Option Str := none
  path : Str
deriving DecidableEq, Repr

/-- JavaScript `const [baseUrl, queryString] = url.split('?')`: the first
piece and, when a `?` occurs, the second piece (later pieces dropped). -/
def splitQ (url : Str) : Str × Option Str :=
  match splitC '?' url with
  | [] => (url, none)
  | [b] => (b, none)
  | b :: q :: _ => (b, some q)

/-- Split off a `http://` / `https://` scheme, keeping it. -/
def splitScheme (s : Str) : Option (Str × Str) :=
  if (lit "https://").isPrefixOf s then some (lit "https://", s.drop 8)
  else if (lit "http://").isPrefixOf s then some (lit "http://", s.drop 7)
  else none

/-- First `/`-free segment and the remainder (which starts with `/` when
nonempty). -/
def seg (s : Str) : Str × Str := (s.takeWhile (· ≠ '/'), s.dropWhile (· ≠ '/'))

/-- Substring occurrence test (JS-regex-style `[^\x2f]*gitlab[^\x2f]*`
host check reduces to: the host segment contains the literal). -/
def containsSub (sub : Str) : Str → Bool
  | [] => sub.isPrefixOf []
  | c :: rest => sub.isPrefixOf (c :: rest) || containsSub sub rest

/-- First `ref=VALUE` occurrence of the JS regex `/ref=([^&]+)/` on the
query string: scanned left to right, the value is the maximal nonempty
run of non-`&` characters; an empty value makes the scan continue. -/
def findRefRaw : Str → Option Str
  | [] => none
  | c :: rest =>
    if (lit "ref=").isPrefixOf (c :: rest) then
      let v := ((c :: rest).drop 4).takeWhile (· ≠ '&')
      if v = [] then findRefRaw rest else some v
    else findRefRaw rest

/-- The GitHub regex
`https?:\/\/(github\.com)\/([^\/]+)\/([^\/]+)(?:\/(.*))?` as a
deterministic parser: (host, owner, repo, path). -/
def githubParse (baseUrl : Str) : Option (Str × Str × Str × Str) :=
  match splitScheme baseUrl with
  | none => none
  | some (_, s) =>
    if (lit "github.com/").isPrefixOf s then
      let r1 := s.drop 11
      let (owner, r2) := seg r1
      if owner = [] then none
      else
        match r2 with
        | '/' :: r3 =>
          let (repo, r4) := seg r3
          if repo = [] then none
          else
            match r4 with
            | '/' :: path => some (lit "github.com", owner, repo, path)
            | _ => some (lit "github.com", owner, repo, [])
        | _ => none
    else none

/-- The GitLab tree/blob regex as a deterministic parser: scheme, a host
segment containing `gitlab`, nonempty owner and repo segments, the
literal dash segment, `tree` or `blob`, then a nonempty remainder:
(host, owner, repo, branchAndPath). -/
def gitlabTreeParse (baseUrl : Str) : Option (Str × Str × Str × Str) :=
  match splitScheme baseUrl with
  | none => none
  | some (_, s) =>
    let (host, r1) := seg s
    if !(containsSub (lit "gitlab") host) then none
    else
      match r1 with
      | '/' :: r2 =>
        let (owner, r3) := seg r2
        if owner = [] then none
        else
          match r3 with
          | '/' :: r4 =>
            let (repo, r5) := seg r4
            if repo = [] then none
            else if (lit "/-/tree/").isPrefixOf r5 ||
                (lit "/-/blob/").isPrefixOf r5 then
              let bp := r5.drop 8
              if bp = [] then none else some (host, owner, repo, bp)
            else none
          | _ => none
      | _ => none

/-- The plain GitLab regex
`https?:\/\/([^\/]*gitlab[^\/]*)\/([^\/]+)\/([^\/]+)(?:\/(.*))?` as a
deterministic parser: (host, owner, repo, path). -/
def gitlabSimpleParse (baseUrl : Str) : Option (Str × Str × Str × Str) :=
  match splitScheme baseUrl with
  | none => none
  | some (_, s) =>
    let (host, r1) := seg s
    if !(containsSub (lit "gitlab") host) then none
    else
      match r1 with
      | '/' :: r2 =>
        let (owner, r3) := seg r2
        if owner = [] then none
        else
          match r3 with
          | '/' :: r4 =>
            let (repo, r5) := seg r4
            if repo = [] then none
            else
              match r5 with
              | '/' :: path => some (host, owner, repo, path)
              | _ => some (host, owner, repo, [])
          | _ => none
      | _ => none

/-- The branch/path split of the no-`ref` GitLab tree heuristic
(`parseGitUrl`, lines 756-794): try `min(3, n)` segments first and accept
immediately when at least 2 segments are available; with a single segment
the whole remainder becomes the branch and the path is empty. -/
def gitlabTreeHeuristic (bp : Str) : Str × Str :=
  let parts := splitC '/' bp
  if 2 ≤ parts.length then (joinC '/' (parts.take 3), joinC '/' (parts.drop 3))
  else (bp, [])

/-- `GitCrawler.parseGitUrl` (lines 690-815).  `Except.error` models the
JS `throw`; a failing `decodeURIComponent` on the `ref=` value models the
`URIError` escaping the function. -/
def parseGitUrl (url : Str) : Except Str GitUrlComponents :=
  let (baseUrl, queryString) := splitQ url
  let refE : Except Str (Option Str) :=
    match queryString with
    | none => Except.ok none
    | some q =>
      match findRefRaw q with
      | none => Except.ok none
      | some raw =>
        match decodeURIComponent raw with
        | none => Except.error (lit "URIError: URI malformed")
        | some v => Except.ok (if v = lit "heads" then none else some v)
  match refE with
  | Except.error e => Except.error e
  | Except.ok ref =>
    match githubParse baseUrl with
    | some (host, owner, repo, path) =>
      Except.ok { provider := Provider.github, host := host, owner := owner,
                  repo := stripOneSuf (lit ".git") repo, ref := ref, path := path }
    | none =>
      match gitlabTreeParse baseUrl with
      | some (host, owner, repo, bp) =>
        match ref with
        | some r =>
          Except.ok { provider := Provider.gitlab, host := host, owner := owner,
                      repo := stripOneSuf (lit ".git") repo, ref := some r, path := bp }
        | none =>
          let (branch, path) := gitlabTreeHeuristic bp
          Except.ok { provider := Provider.gitlab, host := host, owner := owner,
                      repo := stripOneSuf (lit ".git") repo, ref := some branch,
                      path := path }
      | none =>
        match gitlabSimpleParse baseUrl with
        | some (host, owner, repo, path) =>
          Except.ok { provider := Provider.gitlab, host := host, owner := owner,
                      repo := stripOneSuf (lit ".git") repo,
                      ref := some (ref.getD (lit "main")), path := path }
        | none =>
          Except.error (lit "URL non reconnue: " ++ url ++
            lit ". Formats supportés: GitHub et GitLab")

/-- The `normalizeUrl` GitLab regex (the same shape as
`gitlabTreeParse`, but capturing the scheme-host-owner-repo prefix):
(captured repo base, branchAndPath). -/
def gitlabRepoBaseParse (baseUrl : Str) : Option (Str × Str) :=
  match splitScheme baseUrl with
  | none => none
  | some (scheme, s) =>
    let (host, r1) := seg s
    if !(containsSub (lit "gitlab") host) then none
    else
      match r1 with
      | '/' :: r2 =>
        let (owner, r3) := seg r2
        if owner = [] then none
        else
          match r3 with
          | '/' :: r4 =>
            let (repo, r5) := seg r4
            if repo = [] then none
            else if (lit "/-/tree/").isPrefixOf r5 ||
                (lit "/-/blob/").isPrefixOf r5 then
              let bp := r5.drop 8
              if bp = [] then none
              else some (scheme ++ host ++ '/' :: owner ++ '/' :: repo, bp)
            else none
          | _ => none
      | _ => none

/-- JavaScript `s.replace(/\/tree\/[^\/]+/, '')`: remove the leftmost
`/tree/<segment>` occurrence (the segment nonempty), leaving the
remainder unscanned. -/
def replaceTreeSeg : Str → Str
  | [] => []
  | c :: rest =>
    if (lit "/tree/").isPrefixOf (c :: rest) then
      let after := (c :: rest).drop 6
      let segPart := after.takeWhile (· ≠ '/')
      if segPart = [] then c :: replaceTreeSeg rest
      else after.dropWhile (· ≠ '/')
    else c :: replaceTreeSeg rest

/-- JavaScript `s.replace(/\/$/, '')`: drop one trailing slash. -/
def stripTrailSlash (s : Str) : Str :=
  if s.getLast? = some '/' then s.dropLast else s

/-- `GitCrawler.normalizeUrl` (lines 619-666): GitLab tree/blob URLs
(with the dash segment) are rewritten with the **first two** segments as
the branch carried in `?ref=` (dropping any original query); otherwise
the first `tree/<branch>` path part is stripped, one trailing slash
removed, and a nonempty query re-attached. -/
def normalizeUrl (url : Str) : Str :=
  let (baseUrl, queryString) := splitQ url
  match gitlabRepoBaseParse baseUrl with
  | some (repoBase, bp) =>
    let parts := splitC '/' bp
    let branch := joinC '/' (parts.take 2)
    let path := joinC '/' (parts.drop 2)
    repoBase ++ (if path = [] then [] else '/' :: path) ++
      lit "?ref=" ++ encodeURIComponent branch
  | none =>
    let n1 := stripTrailSlash (replaceTreeSeg baseUrl)
    match queryString with
    | some q => if q = [] then n1 else n1 ++ '?' :: q
    | none => n1

/-- `GitCrawler.ensureKustomizationYaml` (lines 672-685). -/
def ensureKustomizationYaml (url : Str) : Str :=
  if endsWithS (lit "kustomization.yaml") url ||
      endsWithS (lit "kustomization.yml") url then url
  else
    let (baseUrl, queryString) := splitQ url
    let urlWithFile := baseUrl ++ lit "/kustomization.yaml"
    match queryString with
    | some q => if q = [] then urlWithFile else urlWithFile ++ '?' :: q
    | none => urlWithFile

/-- `GitCrawler.isYamlFile` (lines 556-561): a bare YAML manifest —
`.yaml`/`.yml` case-insensitively, excluding `kustomization.yaml` and
`kustomization.yml`. -/
def isYamlFile (path : Str) : Bool :=
  let lower := path.map Char.toLower
  (endsWithS (lit ".yaml") lower || endsWithS (lit ".yml") lower) &&
  !(endsWithS (lit "kustomization.yaml") lower) &&
  !(endsWithS (lit "kustomization.yml") lower)

/-- `GitCrawler.isFullUrl`. -/
def isFullUrl (path : Str) : Bool :=
  (lit "http://").isPrefixOf path || (lit "https://").isPrefixOf path

/-- `GitCrawler.buildGitUrl` (lines 820-832). -/
def buildGitUrl (_provider : Provider) (host owner repo : Str)
    (ref : Option Str) (path : Str) : Str :=
  let pathPart := if path = [] then [] else '/' :: path
  let baseUrl := lit "https://" ++ host ++ '/' :: owner ++ '/' :: repo ++ pathPart
  match ref with
  | some r => baseUrl ++ lit "?ref=" ++ encodeURIComponent r
  | none => baseUrl

/-- `GitCrawler.resolveUrl` (lines 573-594): full URLs pass through;
relative paths are joined onto the parsed base URL. -/
def resolveUrl (baseUrl relativePath : Str) : Except Str Str :=
  if isFullUrl relativePath then Except.ok relativePath
  else
    match parseGitUrl baseUrl with
    | Except.error e => Except.error e
    | Except.ok c =>
      Except.ok (buildGitUrl c.provider c.host c.owner c.repo c.ref
        (joinPaths c.path relativePath))

/-- The network boundary of the crawl: `fetchFileContent` parses the file
URL and dispatches to the provider HTTP adapters
(`fetchGitHubFile`/`fetchGitLabFile`), which are external collaborators
(spec §4.3).  The oracle stands for the network fetch **and** the
`yaml.parse` step, whose failures are caught by the same `try` block of
`crawlKustomization`. -/
abbrev FetchOracle := GitUrlComponents → Except Str Kustomization

/-- The crawl-scoped mutable state: the node counter, the visited cache
(normalized URL → node, a JS `Map` in insertion order) and an
instrumentation log of the fetches attempted (used to state that cache
hits perform no fetch). -/
structure CrawlSt where
  nodeCounter : Nat
  visited : List (Str × KustomizeNode)
  fetchLog : List GitUrlComponents
deriving DecidableEq, Repr

/-- Lookup in the visited cache. -/
def visitedGet (st : CrawlSt) (k : Str) : Option KustomizeNode :=
  (st.visited.find? (fun pr => pr.1 == k)).map (·.2)

/-- `GitCrawler.createNode` (lines 530-551): throws exactly when
`parseGitUrl` does. -/
def createNode (url : Str) (kust : Kustomization)
    (referenceType : Option RefKind) (ctr : Nat) :
    Except Str (KustomizeNode × Nat) :=
  match parseGitUrl url with
  | Except.error e => Except.error e
  | Except.ok comps =>
    let displayPath := if comps.path = [] then lit "." else comps.path
    Except.ok ({ id := lit "node-" ++ natStr ctr, path := displayPath,
                 type := referenceType.getD RefKind.resource,
                 kustomizationContent := kust, isRemote := true,
                 remoteUrl := some url, loaded := true }, ctr + 1)

/-- `GitCrawler.createErrorNode` (lines 466-504): total — its internal
`try` falls back to a minimal node when even parsing fails. -/
def createErrorNode (url : Str) (type : RefKind) (errorMessage : Str)
    (ctr : Nat) : KustomizeNode × Nat :=
  match parseGitUrl url with
  | Except.ok comps =>
    let displayPath := if comps.path = [] then lit "." else comps.path
    ({ id := lit "node-" ++ natStr ctr ++ lit "-error", path := displayPath,
       type := type,
       kustomizationContent :=
         { apiVersion := some (lit "kustomize.config.k8s.io/v1beta1"),
           kind := some (lit "Kustomization") },
       isRemote := true, remoteUrl := some url, loaded := false,
       error := some errorMessage }, ctr + 1)
  | Except.error pe =>
    ({ id := lit "node-" ++ natStr ctr ++ lit "-error", path := url,
       type := type,
       kustomizationContent :=
         { apiVersion := some (lit "kustomize.config.k8s.io/v1beta1"),
           kind := some (lit "Kustomization") },
       isRemote := true, remoteUrl := some url, loaded := false,
       error := some (lit "Parse error: " ++ pe ++ lit ". Original: " ++
         errorMessage) }, ctr + 1)

/-- `GitCrawler.processResource` (lines 433-458), parameterized by the
recursive crawl call: plain YAML files are skipped; `resolveUrl` runs
outside the `try`, so its throw escapes; the `try` around the recursive
crawl swallows every error. -/
def processResource
    (crawl : Str → Option RefKind → List KustomizeNode → CrawlSt →
      Option (List KustomizeNode × CrawlSt × Except Str KustomizeNode))
    (resource parentUrl : Str) (nodes : List KustomizeNode) (st : CrawlSt) :
    Option (List KustomizeNode × CrawlSt × Except Str Unit) :=
  if isYamlFile resource then some (nodes, st, Except.ok ())
  else
    match resolveUrl parentUrl resource with
    | Except.error e => some (nodes, st, Except.error e)
    | Except.ok resolvedUrl =>
      match crawl resolvedUrl (some RefKind.resource) nodes st with
      | none => none
      | some (nodes', st', _) => some (nodes', st', Except.ok ())

/-- `GitCrawler.processComponent` (lines 510-524): no YAML skip, no
`try` — errors propagate. -/
def processComponent
    (crawl : Str → Option RefKind → List KustomizeNode → CrawlSt →
      Option (List KustomizeNode × CrawlSt × Except Str KustomizeNode))
    (component parentUrl : Str) (nodes : List KustomizeNode) (st : CrawlSt) :
    Option (List KustomizeNode × CrawlSt × Except Str Unit) :=
  match resolveUrl parentUrl component with
  | Except.error e => some (nodes, st, Except.error e)
  | Except.ok resolvedUrl =>
    match crawl resolvedUrl (some RefKind.component) nodes st with
    | none => none
    | some (nodes', st', Except.ok _) => some (nodes', st', Except.ok ())
    | some (nodes', st', Except.error e) => some (nodes', st', Except.error e)

/-- A `for (const x of xs)` loop over child entries in which a JS
exception (`Except.error`) aborts the remaining iterations. -/
def childFold
    (proc : Str → List KustomizeNode → CrawlSt →
      Option (List KustomizeNode × CrawlSt × Except Str Unit))
    (entries : List Str) (nodes : List KustomizeNode) (st : CrawlSt) :
    Option (List KustomizeNode × CrawlSt × Except Str Unit) :=
  entries.foldl
    (fun acc entry =>
      match acc with
      | none => none
      | some (ns, s, Except.error e) => some (ns, s, Except.error e)
      | some (ns, s, Except.ok _) => proc entry ns s)
    (some (nodes, st, Except.ok ()))

/-- `GitCrawler.crawlKustomization` (lines 357-426), structural on an
explicit fuel (`none` = fuel exhausted; the JS recursion is bounded by
the visited cache, see `crawlFromOverlay`).  The returned
`Except Str KustomizeNode` models the JS return value or thrown
exception; the node list and state survive a throw, as JS mutation
does. -/
def crawlKustomization :
    Nat → FetchOracle → Str → Option RefKind → List KustomizeNode → CrawlSt →
    Option (List KustomizeNode × CrawlSt × Except Str KustomizeNode)
  | 0, _, _, _, _, _ => none
  | fuel + 1, oracle, url, referenceType, nodes, st =>
    let normalizedUrl := normalizeUrl url
    match visitedGet st normalizedUrl with
    | some existingNode => some (nodes, st, Except.ok existingNode)
    | none =>
      -- the try block: ensure the file URL, fetch, parse, build the node;
      -- any failure is caught and becomes an error node
      let mkErr := fun (e : Str) (stf : CrawlSt) =>
        let en := createErrorNode normalizedUrl
          (referenceType.getD RefKind.resource) e stf.nodeCounter
        let st1 : CrawlSt :=
          { stf with
            nodeCounter := en.2
            visited := stf.visited ++ [(normalizedUrl, en.1)] }
        some (nodes ++ [en.1], st1, Except.ok en.1)
      match parseGitUrl (ensureKustomizationYaml normalizedUrl) with
      | Except.error e => mkErr e st
      | Except.ok comps =>
        let stf : CrawlSt := { st with fetchLog := st.fetchLog ++ [comps] }
        match oracle comps with
        | Except.error e => mkErr e stf
        | Except.ok kust =>
          match createNode normalizedUrl kust referenceType stf.nodeCounter with
          | Except.error e => mkErr e stf
          | Except.ok (node, ctr') =>
            let st1 : CrawlSt :=
              { stf with
                nodeCounter := ctr'
                visited := stf.visited ++ [(normalizedUrl, node)] }
            let nodes1 := nodes ++ [node]
            if node.error.isSome then some (nodes1, st1, Except.ok node)
            else
              let crawl := fun u rt ns s => crawlKustomization fuel oracle u rt ns s
              match childFold
                  (fun r ns s => processResource crawl r normalizedUrl ns s)
                  node.kustomizationContent.resources nodes1 st1 with
              | none => none
              | some (ns2, st2, Except.error e) => some (ns2, st2, Except.error e)
              | some (ns2, st2, Except.ok _) =>
                match childFold
                    (fun b ns s => processResource crawl b normalizedUrl ns s)
                    node.kustomizationContent.bases ns2 st2 with
                | none => none
                | some (ns3, st3, Except.error e) => some (ns3, st3, Except.error e)
                | some (ns3, st3, Except.ok _) =>
                  match childFold
                      (fun cp ns s => processComponent crawl cp normalizedUrl ns s)
                      node.kustomizationContent.components ns3 st3 with
                  | none => none
                  | some (ns4, st4, Except.error e) => some (ns4, st4, Except.error e)
                  | some (ns4, st4, Except.ok _) => some (ns4, st4, Except.ok node)

/-- `GitCrawler.crawlFromOverlay` (lines 339-355): reset the crawl state,
crawl, return the node list; a thrown error is re-thrown.  The JS
recursion needs no fuel — each non-cached call inserts its normalized URL
into the visited cache before recursing, so the recursion depth is
bounded; the model exposes the fuel and the claims quantify over it. -/
def crawlFromOverlay (fuel : Nat) (oracle : FetchOracle) (overlayUrl : Str) :
    Option (Except Str (List KustomizeNode)) :=
  match crawlKustomization fuel oracle overlayUrl none []
      { nodeCounter := 0, visited := [], fetchLog := [] } with
  | none => none
  | some (nodes, _, Except.ok _) => some (Except.ok nodes)
  | some (_, _, Except.error e) => some (Except.error e)

/-- A kustomization whose `a` directory references `../b` (and a plain
YAML manifest) while `b` references `../a`: a two-node reference cycle. -/
def kustA : Kustomization := { resources := [lit "../b", lit "deploy.yaml"] }

/-- See `kustA`. -/
def kustB : Kustomization := { resources := [lit "../a"] }

/-- The fetch oracle of the two-node cycle. -/
def cycOracle : FetchOracle := fun c =>
  if c.path = lit "a/kustomization.yaml" then Except.ok kustA
  else if c.path = lit "b/kustomization.yaml" then Except.ok kustB
  else Except.error (lit "404")

/-- The root URL of the two-node cycle. -/
def cycUrlA : Str := lit "https://github.com/o/r/a"

/-- A fetch oracle for which every fetch fails. -/
def failOracle : FetchOracle := fun _ => Except.error (lit "404")

/-- A node whose kustomization declares a single `bases` entry that is a
bare YAML manifest file. -/
def cBaseNode : KustomizeNode :=
  { id := lit "node-0", path := lit ".", type := RefKind.resource,
    kustomizationContent := { bases := [lit "deploy.yaml"] },
    isRemote := false, loaded := true }

/-! ## C9: the branch/path split heuristics on ref-less GitLab tree URLs -/

/-- A GitLab tree URL assembled from its components (right-nested, with
the slash before the dash segment explicit, so the segment lemmas below
apply syntactically). -/
def mkTreeUrl (host owner repo bp : Str) : Str :=
  lit "https://" ++ (host ++ '/' :: (owner ++ '/' :: (repo ++ '/' :: (lit "-/tree/" ++ bp))))

/-! ## Reference Parser (Go `internal/parser`, spec section 4.1)

The Go reference parser is exercised by `internal/parser/reference_test.go`
but its implementation file is not in the tree; the definitions below are
modelled from the specification (section 4.1) and validated against every
vector of that test file (`parseReference_go_vectors`). -/

/-- Modelled from the spec: the classification of a reference, relative
or remote (spec 4.1 output guarantee: `Type` is one of the two). -/
inductive ReferenceType where
  | relative
  | remote
deriving DecidableEq, Repr

/-- Modelled from the spec: the repository record of a remote reference
(spec 4.1: provider, host, owner, repo, ref). -/
structure RepoInfo where
  provider : Provider
  host : Str
  owner : Str
  repo : Str
  ref : Str
deriving DecidableEq, Repr

/-- Modelled from the spec: the parser output record
(`KustomizeReference` of the Go tests). -/
structure KustomizeReference where
  refType : ReferenceType
  relativePath : Str := []
  repoInfo : Option RepoInfo := none
  path : Str := []
deriving DecidableEq, Repr

/-- Modelled from the spec: an SSH-style locator `user@host:rest`
(spec 4.1, e.g. `git@github.com:owner/repo.git//path?ref=value`) is
rewritten to the equivalent HTTPS form `https://host/rest`; `none` when
the string has no such shape (no `@`, no `:` after the host, or a slash
inside the user or host part, as in an HTTPS URL with an embedded `@`). -/
def sshToHttps (s : Str) : Option Str :=
  let user := s.takeWhile (· ≠ '@')
  match s.dropWhile (· ≠ '@') with
  | [] => none
  | _ :: r2 =>
    let host := r2.takeWhile (· ≠ ':')
    match r2.dropWhile (· ≠ ':') with
    | [] => none
    | _ :: rest =>
      if user.isEmpty || host.isEmpty || user.contains '/' || host.contains '/' then
        none
      else some (lit "https://" ++ host ++ '/' :: rest)

/-- Modelled from the spec: the `ref=` query value, where the
provider-emitted non-value `heads` counts as no explicit ref
(spec 4.1). -/
def refFromQuery : Option Str → Option Str
  | none => none
  | some qs =>
    match findRefRaw qs with
    | none => none
    | some v => if v = lit "heads" then none else some v

/-- Modelled from the spec: the default branch name of a provider;
`main` for both (spec 4.1 plain form, `TestParseReference_HTTP_NoRef`). -/
def defaultBranch (_p : Provider) : Str := lit "main"

/-- Modelled from the spec: provider-specific host patterns, exactly
`github.com` for GitHub and any host containing `gitlab` for GitLab
(spec 4.1). -/
def providerOfHost (host : Str) : Option Provider :=
  if host = lit "github.com" then some Provider.github
  else if containsSub (lit "gitlab") host then some Provider.gitlab
  else none

/-- Modelled from the spec: split at the first double slash of the
Kustomize convention `.../repo//path` (spec 4.1), or `none` when there
is none. -/
def splitDoubleSlash : Str → Option (Str × Str)
  | [] => none
  | '/' :: '/' :: rest => some ([], rest)
  | c :: rest => (splitDoubleSlash rest).map (fun p => (c :: p.1, p.2))

/-- Modelled from the spec: the canonical HTTP(S) form a reference is
parsed under, after the SSH-style rewrite when it applies (spec 4.1,
first classification rule). -/
def canonicalReference (s : Str) : Str :=
  match sshToHttps s with
  | some u => u
  | none => s

/-- Modelled from the spec: decomposition of an HTTP(S) remote reference
(spec 4.1): strip the scheme; the first segment is the host, whose
pattern fixes the provider; the double-slash convention splits the
repository part from the path, the last repository segment being the
repo and the rest joined as the owner (so GitLab subgroups stay in the
owner, `TestParseReference_HTTP_GitLab`); the plain form takes the first
two segments as owner and repo; a trailing `.git` is stripped from the
repo; the path is trimmed of leading and trailing slashes; the ref comes
from the query or defaults. -/
def parseRemoteReference (u : Str) : Except Str KustomizeReference :=
  let bq := splitQ u
  let refv := refFromQuery bq.2
  match splitScheme bq.1 with
  | none => Except.error (lit "not a remote reference")
  | some (_, s) =>
    let hostRest := seg s
    match providerOfHost hostRest.1 with
    | none => Except.error (lit "unsupported provider host")
    | some provider =>
      match hostRest.2 with
      | '/' :: rest =>
        match splitDoubleSlash rest with
        | some (repoPart, path) =>
          let segsOR := splitC '/' repoPart
          let owner := joinC '/' segsOR.dropLast
          let repo := stripOneSuf (lit ".git") (segsOR.getLastD [])
          if segsOR.length < 2 || owner.isEmpty || repo.isEmpty then
            Except.error (lit "malformed repository reference")
          else
            Except.ok { refType := ReferenceType.remote
                        repoInfo := some { provider := provider
                                           host := hostRest.1
                                           owner := owner
                                           repo := repo
                                           ref := refv.getD (defaultBranch provider) }
                        path := trimC '/' path }
        | none =>
          let ownerRest := seg rest
          match ownerRest.2 with
          | '/' :: r2 =>
            let repoRest := seg r2
            let repo := stripOneSuf (lit ".git") repoRest.1
            if ownerRest.1.isEmpty || repo.isEmpty then
              Except.error (lit "malformed repository reference")
            else
              Except.ok { refType := ReferenceType.remote
                          repoInfo := some { provider := provider
                                             host := hostRest.1
                                             owner := ownerRest.1
                                             repo := repo
                                             ref := refv.getD (defaultBranch provider) }
                          path := trimC '/' repoRest.2 }
          | _ => Except.error (lit "missing repository segment")
      | _ => Except.error (lit "missing repository path")

/-- Modelled from the spec: `ParseReference(reference, token)`
(spec 4.1): fail on the empty string; rewrite SSH-style locators to
HTTPS; classify HTTP(S) strings as remote and decompose them; everything
else is a relative reference recorded verbatim. The token is never
consulted (the parser performs no network I-O). -/
def ParseReference (reference : Str) (_token : Str) : Except Str KustomizeReference :=
  if reference.isEmpty then Except.error (lit "empty reference")
  else if isFullUrl (canonicalReference reference) then
    parseRemoteReference (canonicalReference reference)
  else
    Except.ok { refType := ReferenceType.relative
                relativePath := reference }

/-- The parse of the no-ref vector of `TestParseReference_HTTP_NoRef`. -/
def cParsedRemote : KustomizeReference :=
  { refType := ReferenceType.remote
    repoInfo := some { provider := Provider.github
                       host := lit "github.com"
                       owner := lit "owner"
                       repo := lit "repo"
                       ref := lit "main" }
    path := lit "deploy/base" }

/-! ## Theorems -/

lemma stripOnePre_of_pre {pre s : Str} (h : pre.isPrefixOf s = true) :
    stripOnePre pre s = s.drop pre.length := by
  simp [stripOnePre, h]

/-- Loop invariant of the `findLongestMatch` accumulator: the accumulator
is the longest nonempty prefix-matching name seen so far (or the initial
empty sentinel), and its recorded length bounds every prefix-matching
name already scanned. -/
lemma flmLoop_inv (up : Str) :
    ∀ (bs : List Str) (m : Str) (n : Nat),
    (m = [] → n = 0) →
    (m ≠ [] → m.isPrefixOf up = true ∧ n = m.length) →
    (((flmLoop up bs (m, n)).1 = [] → (flmLoop up bs (m, n)).2 = 0) ∧
     ((flmLoop up bs (m, n)).1 ≠ [] →
        (flmLoop up bs (m, n)).1.isPrefixOf up = true ∧
        (flmLoop up bs (m, n)).2 = (flmLoop up bs (m, n)).1.length) ∧
     ((flmLoop up bs (m, n)).1 = m ∨ (flmLoop up bs (m, n)).1 ∈ bs) ∧
     (∀ b ∈ bs, b.isPrefixOf up = true → b.length ≤ (flmLoop up bs (m, n)).2) ∧
     n ≤ (flmLoop up bs (m, n)).2 ∧
     ((flmLoop up bs (m, n)).1 = [] → m = [])) := by
  intro bs
  induction bs with
  | nil =>
    intro m n h0 h1
    refine ⟨h0, h1, Or.inl rfl, ?_, le_refl n, fun h => h⟩
    intro b hb
    simp at hb
  | cons b bs ih =>
    intro m n h0 h1
    by_cases hcond : (b.isPrefixOf up && decide (n < b.length)) = true
    · -- the accumulator is updated to (b, b.length)
      have hb : b.isPrefixOf up = true := by
        rcases Bool.and_eq_true_iff.mp hcond with ⟨hb', _⟩; exact hb'
      have hlt : n < b.length := by
        rcases Bool.and_eq_true_iff.mp hcond with ⟨_, hn⟩; exact of_decide_eq_true hn
      have hbne : b ≠ [] := by
        intro hbe; subst hbe; simp at hlt
      have hstep : flmLoop up (b :: bs) (m, n) = flmLoop up bs (b, b.length) := by
        simp [flmLoop, hcond]
      have H := ih b b.length
        (fun hbe => absurd hbe hbne)
        (fun _ => ⟨hb, rfl⟩)
      rw [hstep]
      obtain ⟨H0, H1, H2, H3, H4, H5⟩ := H
      refine ⟨H0, H1, ?_, ?_, ?_, ?_⟩
      · rcases H2 with h | h
        · exact Or.inr (by simp [h])
        · exact Or.inr (by simp [h])
      · intro x hx hxp
        rcases List.mem_cons.mp hx with h | h
        · subst h; exact le_trans (le_refl x.length) H4
        · exact H3 x h hxp
      · exact le_trans (le_of_lt hlt) H4
      · intro hre
        exact absurd (H5 hre) hbne
    · -- the accumulator is unchanged
      have hstep : flmLoop up (b :: bs) (m, n) = flmLoop up bs (m, n) := by
        simp only [flmLoop]
        rw [if_neg hcond]
      have H := ih m n h0 h1
      rw [hstep]
      obtain ⟨H0, H1, H2, H3, H4, H5⟩ := H
      refine ⟨H0, H1, ?_, ?_, H4, H5⟩
      · rcases H2 with h | h
        · exact Or.inl h
        · exact Or.inr (by simp [h])
      · intro x hx hxp
        rcases List.mem_cons.mp hx with h | h
        · subst h
          -- not updated although x matches: x.length ≤ n
          have : ¬ n < x.length := by
            intro hlt
            exact hcond (by simp [hxp, hlt])
          exact le_trans (Nat.le_of_not_lt this) H4
        · exact H3 x h hxp

/-- C1 (amended).  `findLongestMatch` first trims leading/trailing slashes
from the path; when it returns a match, the match is a **nonempty** member
of the name list that prefixes the trimmed path, of maximal length among
all names prefixing it, and the returned remainder is the trimmed path
after the match and one separating slash; it returns the error exactly
when no nonempty name prefixes the trimmed path (the empty name can never
be selected). -/
theorem findLongestMatch_spec (branches : List Str) (p : Str) :
    (∀ m rest, findLongestMatch branches p = some (m, rest) →
      m ∈ branches ∧ m ≠ [] ∧ m.isPrefixOf (trimC '/' p) = true ∧
      (∀ b ∈ branches, b.isPrefixOf (trimC '/' p) = true → b.length ≤ m.length) ∧
      rest = stripOnePre ['/'] ((trimC '/' p).drop m.length)) ∧
    (findLongestMatch branches p = none →
      ∀ b ∈ branches, b.isPrefixOf (trimC '/' p) = true → b = []) := by
  have H := flmLoop_inv (trimC '/' p) branches [] 0
    (fun _ => rfl) (fun h => absurd rfl h)
  obtain ⟨H0, H1, H2, H3, H4, H5⟩ := H
  constructor
  · intro m rest hsome
    by_cases hres : (flmLoop (trimC '/' p) branches ([], 0)).1 = []
    · simp [findLongestMatch, hres] at hsome
    · have heq :
          findLongestMatch branches p =
            some ((flmLoop (trimC '/' p) branches ([], 0)).1,
              stripOnePre ['/']
                (stripOnePre (flmLoop (trimC '/' p) branches ([], 0)).1
                  (trimC '/' p))) := by
        simp [findLongestMatch, hres]
      rw [heq] at hsome
      obtain ⟨hm, hrest⟩ := by
        have := Option.some.inj hsome
        exact Prod.mk.injEq .. ▸ this
      obtain ⟨hpre, hlen⟩ := H1 (hm ▸ hres)
      subst hm
      refine ⟨?_, hres, hpre, ?_, ?_⟩
      · rcases H2 with h | h
        · exact absurd h hres
        · exact h
      · intro b hb hbp
        exact le_trans (H3 b hb hbp) (le_of_eq hlen)
      · rw [← hrest, stripOnePre_of_pre hpre]
  · intro hnone b hb hbp
    by_cases hres : (flmLoop (trimC '/' p) branches ([], 0)).1 = []
    · have hz := H0 hres
      have := H3 b hb hbp
      rw [hz] at this
      exact List.eq_nil_of_length_eq_zero (Nat.le_zero.mp this)
    · simp [findLongestMatch, hres] at hnone

/-- C1 witness: concrete application of `findLongestMatch_spec`. -/
theorem findLongestMatch_spec_witness :
    findLongestMatch [lit "main", lit "develop"] (lit "develop/kustomize/base")
      = some (lit "develop", lit "kustomize/base") ∧
    (lit "develop" ∈ [lit "main", lit "develop"] ∧ lit "develop" ≠ [] ∧
      (lit "develop").isPrefixOf (trimC '/' (lit "develop/kustomize/base")) = true ∧
      (∀ b ∈ [lit "main", lit "develop"],
        b.isPrefixOf (trimC '/' (lit "develop/kustomize/base")) = true →
        b.length ≤ (lit "develop").length) ∧
      lit "kustomize/base" =
        stripOnePre ['/']
          ((trimC '/' (lit "develop/kustomize/base")).drop (lit "develop").length)) :=
  ⟨by decide,
   (findLongestMatch_spec [lit "main", lit "develop"] (lit "develop/kustomize/base")).1
     (lit "develop") (lit "kustomize/base") (by decide)⟩

/-- C1 counterexample: the empty string is a name that prefixes the path,
yet `findLongestMatch` fails instead of returning it as the longest match,
contradicting the claim as stated. -/
theorem findLongestMatch_empty_name_cex :
    (lit "").isPrefixOf (trimC '/' (lit "x")) = true ∧
    findLongestMatch [lit ""] (lit "x") = none := by
  decide

/-- Splitting distributes over a separator following a separator-free
prefix. -/
lemma splitC_append_sep {sep : Char} {a : Str} (r : Str) (h : sep ∉ a) :
    splitC sep (a ++ sep :: r) = a :: splitC sep r := by
  induction a with
  | nil => simp [splitC]
  | cons c cs ih =>
    have hc : c ≠ sep := fun he => h (he ▸ List.mem_cons_self c cs)
    have hcs : sep ∉ cs := fun hm => h (List.mem_cons_of_mem c hm)
    simp only [List.cons_append, splitC, if_neg hc, List.append_eq]
    rw [ih hcs]

/-- C10.  Relative path joining is total and never fails: a leading `..`
with no base segments left is silently ignored (for both `resolvePath`
and `joinPaths`), the result is never the empty string, and when all
segments cancel out the result is the single segment `.`. -/
theorem pathJoin_total_spec :
    (∀ rel, resolvePath (lit ".") (lit ".." ++ '/' :: rel) = resolvePath (lit ".") rel) ∧
    (∀ rel, joinPaths (lit ".") (lit ".." ++ '/' :: rel) = joinPaths (lit ".") rel) ∧
    (∀ base rel, resolvePath base rel ≠ []) ∧
    (∀ base rel, joinPaths base rel ≠ []) ∧
    (∀ base rel, resolvePathSegs base rel = [] → resolvePath base rel = lit ".") ∧
    (∀ base rel, joinPathsSegs base rel = [] → joinPaths base rel = lit ".") := by
  have hsplit : ∀ rel : Str, splitC '/' (lit ".." ++ '/' :: rel) = lit ".." :: splitC '/' rel := by
    intro rel
    exact splitC_append_sep rel (by decide)
  refine ⟨?_, ?_, ?_, ?_, ?_, ?_⟩
  · intro rel
    simp only [resolvePath, resolvePathSegs]
    rw [hsplit]
    rfl
  · intro rel
    simp only [joinPaths, joinPathsSegs]
    rw [hsplit]
    rfl
  · intro base rel
    simp only [resolvePath]
    by_cases h : joinC '/' (resolvePathSegs base rel) = []
    · rw [if_pos h]; decide
    · rw [if_neg h]; exact h
  · intro base rel
    simp only [joinPaths]
    by_cases h : joinC '/' (joinPathsSegs base rel) = []
    · rw [if_pos h]; decide
    · rw [if_neg h]; exact h
  · intro base rel h
    simp only [resolvePath, h]
    rfl
  · intro base rel h
    simp only [joinPaths, h]
    rfl

/-- C10 witness: concrete application of `pathJoin_total_spec`. -/
theorem pathJoin_total_spec_witness :
    resolvePath (lit ".") (lit ".." ++ '/' :: lit "overlays/dev")
      = resolvePath (lit ".") (lit "overlays/dev") ∧
    resolvePath (lit "a/b") (lit "../../..") = lit "." ∧
    joinPaths (lit "a") (lit "../..") = lit "." :=
  ⟨pathJoin_total_spec.1 (lit "overlays/dev"),
   pathJoin_total_spec.2.2.2.2.1 (lit "a/b") (lit "../../..") (by decide),
   pathJoin_total_spec.2.2.2.2.2 (lit "a") (lit "../..") (by decide)⟩

lemma applyKindCorrection_id (kinds : List RefKind) (n : KustomizeNode) :
    (applyKindCorrection kinds n).id = n.id := by
  unfold applyKindCorrection
  split_ifs <;> rfl

lemma applyKindCorrection_idem (kinds : List RefKind) (n : KustomizeNode) :
    applyKindCorrection kinds (applyKindCorrection kinds n) = applyKindCorrection kinds n := by
  unfold applyKindCorrection
  split_ifs <;> rfl

lemma nodeTypeStep_id (edges : List DependencyEdge) (tid : Str)
    (pr : Str × KustomizeNode) : (nodeTypeStep edges tid pr).2.id = pr.2.id :=
  applyKindCorrection_id _ _

lemma map_self_of_fix {α : Type} {l : List α} {f : α → α}
    (h : ∀ x ∈ l, f x = x) : l.map f = l := by
  induction l with
  | nil => rfl
  | cons x xs ih =>
    rw [List.map_cons, h x (List.mem_cons_self x xs),
      ih (fun y hy => h y (List.mem_cons_of_mem x hy))]

/-- With pairwise-distinct node ids, updating the first id-match equals
updating every id-match. -/
lemma updateFirstP_eq_map (tid : Str)
    (f : Str × KustomizeNode → Str × KustomizeNode) :
    ∀ m : NodeMap, (m.map (fun pr => pr.2.id)).Nodup →
    updateFirstP (fun pr => pr.2.id == tid) f m
      = m.map (fun pr => if pr.2.id == tid then f pr else pr) := by
  intro m
  induction m with
  | nil => intro _; rfl
  | cons x xs ih =>
    intro h
    rw [List.map_cons, List.nodup_cons] at h
    obtain ⟨hx, hxs⟩ := h
    by_cases hid : (x.2.id == tid) = true
    · have hidx : x.2.id = tid := eq_of_beq hid
      simp only [updateFirstP, hid, if_true, List.map_cons]
      congr 1
      symm
      apply map_self_of_fix
      intro y hy
      have hne : (y.2.id == tid) = false := by
        apply beq_eq_false_iff_ne.mpr
        intro he
        exact hx (by
          rw [hidx, ← he]
          exact List.mem_map_of_mem (fun pr => pr.2.id) hy)
      rw [hne]
      simp
    · simp only [updateFirstP, hid, if_false, List.map_cons, Bool.false_eq_true]
      rw [ih hxs]

lemma nodeTypeStep_idem (edges : List DependencyEdge) (tid : Str)
    (pr : Str × KustomizeNode) :
    nodeTypeStep edges tid (nodeTypeStep edges tid pr) = nodeTypeStep edges tid pr := by
  unfold nodeTypeStep
  rw [applyKindCorrection_idem]

lemma map_congr_mem {α β : Type} {l : List α} {f g : α → β}
    (h : ∀ x ∈ l, f x = g x) : l.map f = l.map g := by
  induction l with
  | nil => rfl
  | cons x xs ih =>
    rw [List.map_cons, List.map_cons, h x (List.mem_cons_self x xs),
      ih (fun y hy => h y (List.mem_cons_of_mem x hy))]

/-- The per-element effect of folding the `correctNodeTypes` updates over
all targets: a node is corrected once with its own incoming-kind set. -/
lemma foldTids_per_elem (edges : List DependencyEdge) :
    ∀ (tids : List Str) (pr : Str × KustomizeNode),
    tids.foldl (fun x tid => if x.2.id == tid then nodeTypeStep edges tid x else x) pr
      = if pr.2.id ∈ tids then nodeTypeStep edges pr.2.id pr else pr := by
  intro tids
  induction tids with
  | nil => intro pr; simp
  | cons t ts ih =>
    intro pr
    rw [List.foldl_cons]
    by_cases hid : (pr.2.id == t) = true
    · have hidt : pr.2.id = t := eq_of_beq hid
      rw [if_pos hid, ih (nodeTypeStep edges t pr), nodeTypeStep_id]
      have hin : pr.2.id ∈ t :: ts := by
        rw [hidt]; exact List.mem_cons_self t ts
      rw [if_pos hin]
      by_cases hmem : pr.2.id ∈ ts
      · rw [if_pos hmem, ← hidt, nodeTypeStep_idem]
      · rw [if_neg hmem, ← hidt]
    · rw [if_neg hid, ih pr]
      have hne : pr.2.id ≠ t := fun he => hid (beq_iff_eq.mpr he)
      by_cases hmem : pr.2.id ∈ ts
      · rw [if_pos hmem, if_pos (List.mem_cons_of_mem t hmem)]
      · rw [if_neg hmem, if_neg (by
          intro hc
          rcases List.mem_cons.mp hc with h | h
          · exact hne h
          · exact hmem h)]

/-- Ids of the node map are unchanged by one `correctNodeTypes` update. -/
lemma updateStep_ids (edges : List DependencyEdge) (t : Str) (m : NodeMap) :
    ((m.map (fun pr => if pr.2.id == t then nodeTypeStep edges t pr else pr)).map
        (fun pr => pr.2.id))
      = m.map (fun pr => pr.2.id) := by
  rw [List.map_map]
  apply map_congr_mem
  intro x _
  simp only [Function.comp]
  by_cases hx : (x.2.id == t) = true
  · rw [if_pos hx, nodeTypeStep_id]
  · rw [if_neg hx]

/-- Folding the `correctNodeTypes` updates over a target list equals
mapping the per-element fold over the node map. -/
lemma foldTids_eq_map (edges : List DependencyEdge) :
    ∀ (tids : List Str) (m : NodeMap), (m.map (fun pr => pr.2.id)).Nodup →
    tids.foldl
        (fun m tid =>
          updateFirstP (fun pr => pr.2.id == tid) (nodeTypeStep edges tid) m) m
      = m.map (fun pr =>
          tids.foldl (fun x tid => if x.2.id == tid then nodeTypeStep edges tid x else x) pr) := by
  intro tids
  induction tids with
  | nil =>
    intro m _
    simp
  | cons t ts ih =>
    intro m h
    rw [List.foldl_cons, updateFirstP_eq_map t (nodeTypeStep edges t) m h]
    rw [ih _ (by rw [updateStep_ids edges t m]; exact h)]
    rw [List.map_map]
    apply map_congr_mem
    intro x _
    simp only [Function.comp, List.foldl_cons]

/-- C2.  On a node map with pairwise-distinct node ids (as the builder
guarantees), the type-correction pass is exactly the pointwise priority
rule over incoming reference kinds: a node gains role `component` when
some edge targeting it has kind `component`, otherwise role `base` when
some such edge has kind `base`, and otherwise keeps its crawl-time role. -/
theorem correctNodeTypes_spec (nodeMap : NodeMap) (edges : List DependencyEdge)
    (h : (nodeMap.map (fun pr => pr.2.id)).Nodup) :
    correctNodeTypes nodeMap edges
      = nodeMap.map (fun pr => (pr.1, applyKindCorrection (kindsAt edges pr.2.id) pr.2)) ∧
    (∀ kinds n, (RefKind.component ∈ kinds →
        (applyKindCorrection kinds n).type = RefKind.component) ∧
      (RefKind.component ∉ kinds → RefKind.base ∈ kinds →
        (applyKindCorrection kinds n).type = RefKind.base) ∧
      (RefKind.component ∉ kinds → RefKind.base ∉ kinds →
        applyKindCorrection kinds n = n)) := by
  constructor
  · rw [correctNodeTypes, foldTids_eq_map edges _ nodeMap h]
    apply map_congr_mem
    intro pr _
    rw [foldTids_per_elem]
    by_cases hmem : pr.2.id ∈ edges.map (fun e => e.target)
    · rw [if_pos hmem]; rfl
    · rw [if_neg hmem]
      have hk : kindsAt edges pr.2.id = [] := by
        unfold kindsAt
        rw [List.filter_eq_nil_iff.mpr, List.map_nil]
        intro e he
        intro hbe
        exact hmem (by
          have : e.target = pr.2.id := eq_of_beq hbe
          rw [← this]
          exact List.mem_map_of_mem (fun e => e.target) he)
      rw [hk]
      unfold applyKindCorrection
      simp
  · intro kinds n
    refine ⟨?_, ?_, ?_⟩
    · intro hc
      unfold applyKindCorrection
      rw [if_pos hc]
    · intro hc hb
      unfold applyKindCorrection
      rw [if_neg hc, if_pos hb]
    · intro hc hb
      unfold applyKindCorrection
      rw [if_neg hc, if_neg hb]

/-- C2 witness: a node targeted by a `resource` and a `component` edge
becomes a `component`; one targeted by `resource` and `base` becomes a
`base`; one targeted only by `resource` keeps its role. -/
theorem correctNodeTypes_spec_witness :
    (([(lit "a", { id := lit "a", path := lit "a", type := RefKind.resource,
                   kustomizationContent := {}, isRemote := false,
                   loaded := true : KustomizeNode })] : NodeMap).map
        (fun pr => pr.2.id)).Nodup ∧
    correctNodeTypes
        [(lit "a", { id := lit "a", path := lit "a", type := RefKind.resource,
                     kustomizationContent := {}, isRemote := false, loaded := true })]
        [{ id := lit "e0", source := lit "r", target := lit "a",
           type := RefKind.resource, label := lit "a" },
         { id := lit "e1", source := lit "r", target := lit "a",
           type := RefKind.component, label := lit "a" }]
      = [(lit "a", { id := lit "a", path := lit "a", type := RefKind.resource,
                     kustomizationContent := {}, isRemote := false,
                     loaded := true : KustomizeNode })].map
          (fun pr =>
            (pr.1, applyKindCorrection
              (kindsAt
                [{ id := lit "e0", source := lit "r", target := lit "a",
                   type := RefKind.resource, label := lit "a" },
                 { id := lit "e1", source := lit "r", target := lit "a",
                   type := RefKind.component, label := lit "a" }] pr.2.id) pr.2)) :=
  ⟨by decide,
   (correctNodeTypes_spec _ _ (by decide)).1⟩

lemma mapSet_mem (m : NodeMap) (k : Str) (v : KustomizeNode) :
    (k, v) ∈ mapSet m k v := by
  unfold mapSet
  by_cases h : (m.find? (fun pr => pr.1 == k)).isSome = true
  · rw [if_pos h]
    obtain ⟨pr, hpr⟩ := Option.isSome_iff_exists.mp h
    have hmem : pr ∈ m := List.mem_of_find?_eq_some hpr
    have hk := List.find?_some hpr
    refine List.mem_map.mpr ⟨pr, hmem, ?_⟩
    rw [if_pos hk]
  · rw [if_neg h]
    exact List.mem_append.mpr (Or.inr (List.mem_singleton.mpr rfl))

/-- C7.  Every reference entry processed by the builder yields exactly one
new edge with a valid target: a remote entry matching no existing node
gets a virtual remote node (unloaded, role `base` unless the kind is
`component`); a local entry resolving to a path with no node gets a
virtual missing node (role `base`, unloaded); and in every case the new
edge's target id belongs to a node of the updated map — broken references
are never dropped. -/
theorem processReference_spec (src : KustomizeNode) (ref : Str) (kind : RefKind)
    (m : NodeMap) (edges : List DependencyEdge) (ctr : Nat) :
    (isRemoteUrl ref = true → (∀ pr ∈ m, pr.2.remoteUrl ≠ some ref) →
      ∃ vn : KustomizeNode,
        vn.id = lit "remote-" ++ natStr ctr ∧
        vn.loaded = false ∧ vn.isRemote = true ∧
        vn.remoteUrl = some ref ∧
        vn.type = (if kind = RefKind.component then RefKind.component else RefKind.base) ∧
        processReference src ref kind m edges ctr =
          (mapSet m vn.path vn,
           edges ++ [{ id := lit "edge-" ++ natStr ctr, source := src.id,
                       target := vn.id, type := kind,
                       label := extractLabelFromUrl ref }],
           ctr + 1)) ∧
    (isRemoteUrl ref = false → mapGet m (resolvePath src.path ref) = none →
      ∃ mn : KustomizeNode,
        mn.id = lit "missing-" ++ natStr ctr ∧
        mn.type = RefKind.base ∧ mn.loaded = false ∧
        mn.path = resolvePath src.path ref ∧
        processReference src ref kind m edges ctr =
          (mapSet m mn.path mn,
           edges ++ [{ id := lit "edge-" ++ natStr ctr, source := src.id,
                       target := mn.id, type := kind, label := ref }],
           ctr + 1)) ∧
    (∃ e : DependencyEdge,
      (processReference src ref kind m edges ctr).2.1 = edges ++ [e] ∧
      e.source = src.id ∧ e.type = kind ∧
      ∃ pr ∈ (processReference src ref kind m edges ctr).1, pr.2.id = e.target) := by
  refine ⟨?_, ?_, ?_⟩
  · intro hrem hno
    have hfind : m.find? (fun pr => pr.2.remoteUrl == some ref) = none := by
      apply List.find?_eq_none.mpr
      intro pr hpr
      intro hbe
      exact hno pr hpr (eq_of_beq hbe)
    refine ⟨{ id := lit "remote-" ++ natStr ctr
              path := extractDisplayNameFromUrl ref
              type := if kind = RefKind.component then RefKind.component else RefKind.base
              kustomizationContent := {}
              isRemote := true
              remoteUrl := some ref
              loaded := false }, rfl, rfl, rfl, rfl, rfl, ?_⟩
    simp [processReference, hrem, hfind]
  · intro hrem hnone
    have hloc : isLocalPath ref = true := by
      unfold isLocalPath
      rw [hrem]
      rfl
    refine ⟨{ id := lit "missing-" ++ natStr ctr
              path := resolvePath src.path ref
              type := RefKind.base
              kustomizationContent := {}
              isRemote := false
              loaded := false }, rfl, rfl, rfl, rfl, ?_⟩
    simp [processReference, hrem, hnone, hloc]
  · by_cases hrem : isRemoteUrl ref = true
    · cases hfind : m.find? (fun pr => pr.2.remoteUrl == some ref) with
      | none =>
        simp only [processReference, hrem, if_true, hfind]
        exact ⟨_, rfl, rfl, rfl, _, mapSet_mem m _ _, rfl⟩
      | some pr =>
        have hprm : pr ∈ m := List.mem_of_find?_eq_some hfind
        by_cases hid : pr.2.id = lit "remote-" ++ natStr ctr
        · simp only [processReference, hrem, if_true, hfind, if_pos hid]
          exact ⟨_, rfl, rfl, rfl, _, mapSet_mem m _ _, hid.symm⟩
        · simp only [processReference, hrem, if_true, hfind, if_neg hid]
          exact ⟨_, rfl, rfl, rfl, pr, hprm, rfl⟩
    · have hrem' : isRemoteUrl ref = false := Bool.eq_false_iff.mpr hrem
      have hloc : isLocalPath ref = true := by
        unfold isLocalPath
        rw [hrem']
        rfl
      cases hget : mapGet m (resolvePath src.path ref) with
      | none =>
        simp only [processReference, hrem', Bool.false_eq_true, if_false, hloc,
          if_true, hget]
        exact ⟨_, rfl, rfl, rfl, _, mapSet_mem m _ _, rfl⟩
      | some tn =>
        obtain ⟨pr, hpr, hpr2⟩ : ∃ pr ∈ m, pr.2 = tn := by
          unfold mapGet at hget
          cases hf : m.find? (fun pr => pr.1 == resolvePath src.path ref) with
          | none => rw [hf] at hget; simp at hget
          | some pr =>
            rw [hf] at hget
            simp at hget
            exact ⟨pr, List.mem_of_find?_eq_some hf, hget⟩
        simp only [processReference, hrem', Bool.false_eq_true, if_false, hloc,
          if_true, hget]
        exact ⟨_, rfl, rfl, rfl, pr, hpr, by rw [hpr2]⟩

/-- C7 witness: concrete application of `processReference_spec` on a
remote component reference against an empty node map. -/
theorem processReference_spec_witness :
    isRemoteUrl (lit "https://github.com/o/r/comp") = true ∧
    (∃ vn : KustomizeNode,
      vn.id = lit "remote-" ++ natStr 0 ∧
      vn.loaded = false ∧ vn.isRemote = true ∧
      vn.remoteUrl = some (lit "https://github.com/o/r/comp") ∧
      vn.type = (if RefKind.component = RefKind.component then RefKind.component
                 else RefKind.base) ∧
      processReference cSrcNode (lit "https://github.com/o/r/comp")
          RefKind.component [] [] 0 =
        (mapSet [] vn.path vn,
         [] ++ [{ id := lit "edge-" ++ natStr 0, source := cSrcNode.id,
                  target := vn.id, type := RefKind.component,
                  label := extractLabelFromUrl (lit "https://github.com/o/r/comp") }],
         0 + 1)) :=
  ⟨by decide,
   (processReference_spec cSrcNode (lit "https://github.com/o/r/comp")
      RefKind.component [] [] 0).1 (by decide)
     (by intro pr hpr; exact absurd hpr (List.not_mem_nil pr))⟩

lemma drop_idxOf {t : Str} : ∀ {l : List Str}, t ∈ l →
    l.drop (idxOf t l) = t :: l.drop (idxOf t l + 1) := by
  intro l
  induction l with
  | nil => intro h; simp at h
  | cons x xs ih =>
    intro h
    by_cases hx : (x == t) = true
    · have : x = t := eq_of_beq hx
      subst this
      simp [idxOf, hx]
    · have hxne : x ≠ t := fun he => hx (beq_iff_eq.mpr he)
      have ht : t ∈ xs := by
        rcases List.mem_cons.mp h with h' | h'
        · exact absurd h'.symm hxne
        · exact h'
      simp only [idxOf, hx, Bool.false_eq_true, if_false, List.drop_succ_cons]
      exact ih ht

/-- The cycle pushed by `dfsEdges` is a genuine cycle: `t` occurs on the
current path, the path is an edge chain, and the closing edge runs from
the path's last entry to `t`. -/
lemma emitted_cycle_real (g : KustomizeGraph) (path : List Str) (t : Str)
    (hchain : List.Chain' (isEdge g) path)
    (ht : t ∈ path)
    (hlast : ∃ s, path.getLast? = some s ∧ isEdge g s t) :
    realCycle g (path.drop (idxOf t path) ++ [t]) := by
  obtain ⟨s, hs, hedge⟩ := hlast
  have hdrop := drop_idxOf ht
  have hdropne : path.drop (idxOf t path) ≠ [] := by
    rw [hdrop]; exact List.cons_ne_nil _ _
  refine ⟨?_, ?_, ?_⟩
  · rw [List.length_append, hdrop]
    simp
  · rw [List.getLast?_concat]
    rw [hdrop]
    rfl
  · have hchain_drop : List.Chain' (isEdge g) (path.drop (idxOf t path)) := by
      have := List.take_append_drop (idxOf t path) path
      rw [← this] at hchain
      exact (List.chain'_append.mp hchain).2.1
    apply List.chain'_append.mpr
    refine ⟨hchain_drop, List.chain'_singleton t, ?_⟩
    intro x hx y hy
    have hylast : (path.drop (idxOf t path)).getLast? = path.getLast? := by
      conv_rhs => rw [← List.take_append_drop (idxOf t path) path]
      rw [List.getLast?_append]
      cases hgl : (path.drop (idxOf t path)).getLast? with
      | none => exact absurd (List.getLast?_eq_none_iff.mp hgl) hdropne
      | some z => rfl
    rw [hylast, hs] at hx
    have hxs : x = s := by
      have := hx
      simp at this
      exact this.symm
    have hyt : y = t := by
      have := hy
      simp at this
      exact this.symm
    rw [hxs, hyt]
    exact hedge

/-- Soundness of the edge loop: given that the recursive `dfs` call is
sound at the current fuel, the loop preserves the recursion stack and
keeps every accumulated cycle genuine. -/
lemma dfsFold_sound (g : KustomizeGraph) (fuel : Nat)
    (hv : ∀ (nodeId : Str) (path : List Str) (st : DfsSt),
      List.Chain' (isEdge g) (path ++ [nodeId]) →
      (∀ x ∈ st.recStack, x ∈ path) →
      soundCycles g st.cycles →
      ((dfsVisit fuel g nodeId path st).recStack = st.recStack ∧
       soundCycles g (dfsVisit fuel g nodeId path st).cycles)) :
    ∀ (es : List DependencyEdge) (path : List Str) (st : DfsSt),
      List.Chain' (isEdge g) path →
      (∀ e ∈ es, path.getLast? = some e.source) →
      (∀ e ∈ es, e ∈ g.edges) →
      (∀ x ∈ st.recStack, x ∈ path) →
      soundCycles g st.cycles →
      ((es.foldl (dfsStep (fun t s => dfsVisit fuel g t path s) path) st).recStack
          = st.recStack ∧
       soundCycles g
        (es.foldl (dfsStep (fun t s => dfsVisit fuel g t path s) path) st).cycles) := by
  intro es
  induction es with
  | nil =>
    intro path st _ _ _ _ hsound
    exact ⟨rfl, hsound⟩
  | cons e es' ih =>
    intro path st hchain hsrc hing hrs hsound
    rw [List.foldl_cons]
    have hsrce : path.getLast? = some e.source := hsrc e (List.mem_cons_self e es')
    have hinge : e ∈ g.edges := hing e (List.mem_cons_self e es')
    have hsrc' : ∀ x ∈ es', path.getLast? = some x.source :=
      fun x hx => hsrc x (List.mem_cons_of_mem e hx)
    have hing' : ∀ x ∈ es', x ∈ g.edges :=
      fun x hx => hing x (List.mem_cons_of_mem e hx)
    by_cases h1 : (!(st.visited.contains e.target)) = true
    · have hchain' : List.Chain' (isEdge g) (path ++ [e.target]) := by
        apply List.chain'_append.mpr
        refine ⟨hchain, List.chain'_singleton e.target, ?_⟩
        intro x hx y hy
        rw [hsrce] at hx
        have hxs : x = e.source := by
          have := hx; simp at this; exact this.symm
        have hyt : y = e.target := by
          have := hy; simp at this; exact this.symm
        rw [hxs, hyt]
        exact ⟨e, hinge, rfl, rfl⟩
      obtain ⟨hr', hs'⟩ := hv e.target path st hchain' hrs hsound
      have hstep : dfsStep (fun t s => dfsVisit fuel g t path s) path st e
          = dfsVisit fuel g e.target path st := by
        unfold dfsStep
        rw [if_pos h1]
      rw [hstep]
      obtain ⟨hr'', hs''⟩ := ih path (dfsVisit fuel g e.target path st) hchain hsrc' hing'
        (by rw [hr']; exact hrs) hs'
      exact ⟨by rw [hr'', hr'], hs''⟩
    · by_cases h2 : st.recStack.contains e.target = true
      · have hstep : dfsStep (fun t s => dfsVisit fuel g t path s) path st e
            = { st with cycles :=
                  st.cycles ++ [path.drop (idxOf e.target path) ++ [e.target]] } := by
          unfold dfsStep
          rw [if_neg h1, if_pos h2]
        rw [hstep]
        have htmem : e.target ∈ path := by
          apply hrs
          simpa using h2
        have hreal : realCycle g (path.drop (idxOf e.target path) ++ [e.target]) :=
          emitted_cycle_real g path e.target hchain htmem
            ⟨e.source, hsrce, ⟨e, hinge, rfl, rfl⟩⟩
        have hsound' : soundCycles g
            (st.cycles ++ [path.drop (idxOf e.target path) ++ [e.target]]) := by
          intro c hc
          rcases List.mem_append.mp hc with h | h
          · exact hsound c h
          · rw [List.mem_singleton.mp h]
            exact hreal
        exact ih path _ hchain hsrc' hing' hrs hsound'
      · have hstep : dfsStep (fun t s => dfsVisit fuel g t path s) path st e = st := by
          unfold dfsStep
          rw [if_neg h1, if_neg h2]
        rw [hstep]
        exact ih path st hchain hsrc' hing' hrs hsound

/-- Soundness of one `dfs` call, for every fuel: the recursion stack is
restored on exit and every accumulated cycle is a genuine graph cycle. -/
lemma dfsVisit_sound (g : KustomizeGraph) :
    ∀ (fuel : Nat) (nodeId : Str) (path : List Str) (st : DfsSt),
    List.Chain' (isEdge g) (path ++ [nodeId]) →
    (∀ x ∈ st.recStack, x ∈ path) →
    soundCycles g st.cycles →
    ((dfsVisit fuel g nodeId path st).recStack = st.recStack ∧
     soundCycles g (dfsVisit fuel g nodeId path st).cycles) := by
  intro fuel
  induction fuel with
  | zero =>
    intro nodeId path st _ _ hs
    exact ⟨rfl, hs⟩
  | succ fuel ih =>
    intro nodeId path0 st hchain hrs hsound
    have hsrc1 : ∀ e ∈ g.edges.filter (fun e => e.source == nodeId),
        (path0 ++ [nodeId]).getLast? = some e.source := by
      intro e he
      rw [List.getLast?_concat]
      exact congrArg some (eq_of_beq (List.mem_filter.mp he).2).symm
    have hing1 : ∀ e ∈ g.edges.filter (fun e => e.source == nodeId), e ∈ g.edges :=
      fun e he => (List.mem_filter.mp he).1
    have hrs1 : ∀ x ∈ nodeId :: st.recStack, x ∈ path0 ++ [nodeId] := by
      intro x hx
      rcases List.mem_cons.mp hx with h | h
      · rw [h]
        exact List.mem_append_right path0 (List.mem_singleton.mpr rfl)
      · exact List.mem_append_left _ (hrs x h)
    have hfold := dfsFold_sound g fuel ih
      (g.edges.filter (fun e => e.source == nodeId)) (path0 ++ [nodeId])
      { st with visited := nodeId :: st.visited, recStack := nodeId :: st.recStack }
      hchain hsrc1 hing1 hrs1 hsound
    simp only [dfsVisit]
    constructor
    · rw [hfold.1]
      exact List.erase_cons_head nodeId st.recStack
    · exact hfold.2

/-- Soundness of the root loop of `detectCycles`. -/
lemma detectLoop_sound (g : KustomizeGraph) :
    ∀ (ns : List (Str × KustomizeNode)) (st : DfsSt),
    st.recStack = [] → soundCycles g st.cycles →
    ((detectLoop g ns st).recStack = [] ∧
     soundCycles g (detectLoop g ns st).cycles) := by
  intro ns
  induction ns with
  | nil =>
    intro st h0 hs
    exact ⟨h0, hs⟩
  | cons p rest ih =>
    intro st h0 hs
    obtain ⟨k, node⟩ := p
    simp only [detectLoop]
    by_cases hv : (!(st.visited.contains node.id)) = true
    · rw [if_pos hv]
      have h := dfsVisit_sound g (g.nodes.length + g.edges.length + 1) node.id [] st
        (by simp)
        (by intro x hx; rw [h0] at hx; simp at hx)
        hs
      exact ih _ (by rw [h.1, h0]) h.2
    · rw [if_neg hv]
      exact ih st h0 hs

lemma acyclic_empty : acyclicG emptyGraph := by
  intro c hc
  obtain ⟨hlen, _, hchain⟩ := hc
  match c, hlen with
  | x :: y :: rest, _ =>
    obtain ⟨e, he, _⟩ := (List.chain'_cons.mp hchain).1
    exact absurd he (List.not_mem_nil e)

/-- C5.  `detectCycles` returns the empty list on every acyclic graph;
on the graph with edges A→B→C→A it returns exactly one cycle, the
sequence A,B,C,A; and every returned cycle is a genuine elementary cycle
written from its re-entry node back to itself (first element equal to the
last). -/
theorem detectCycles_spec :
    (∀ g : KustomizeGraph, acyclicG g → detectCycles g = []) ∧
    (detectCycles abcGraph = [[lit "A", lit "B", lit "C", lit "A"]]) ∧
    (∀ g : KustomizeGraph, ∀ c ∈ detectCycles g,
      realCycle g c ∧ c.head? = c.getLast?) := by
  have hsound : ∀ g : KustomizeGraph, soundCycles g (detectCycles g) := by
    intro g
    have h := detectLoop_sound g g.nodes
      { visited := [], recStack := [], cycles := [] } rfl
      (by intro c hc; simp at hc)
    exact h.2
  refine ⟨?_, ?_, ?_⟩
  · intro g hacy
    apply List.eq_nil_iff_forall_not_mem.mpr
    intro c hc
    exact hacy c (hsound g c hc)
  · decide
  · intro g c hc
    exact ⟨hsound g c hc, (hsound g c hc).2.1⟩

/-- C5 witness: concrete applications of `detectCycles_spec` — the empty
graph is acyclic and yields no cycle; the self-loop graph's returned
cycle [A, A] is a genuine cycle with first element equal to last. -/
theorem detectCycles_spec_witness :
    detectCycles emptyGraph = [] ∧
    ([lit "A", lit "A"] ∈ detectCycles selfLoopGraph ∧
     realCycle selfLoopGraph [lit "A", lit "A"] ∧
     ([lit "A", lit "A"] : List Str).head? = ([lit "A", lit "A"] : List Str).getLast?) :=
  ⟨detectCycles_spec.1 emptyGraph acyclic_empty,
   by decide,
   detectCycles_spec.2.2 selfLoopGraph [lit "A", lit "A"] (by decide)⟩

/-- C4.  A crawl step whose normalized locator is already in the visited
cache returns the identical cached node without fetching, without
appending to the node list and without touching the state; consequently
the two-node reference cycle crawls to completion (the same result at
fuel 5 and fuel 50) producing exactly the two distinct nodes, no
duplicates and no divergence. -/
theorem crawl_memoization_spec :
    (∀ (fuel : Nat) (oracle : FetchOracle) (url : Str) (rt : Option RefKind)
       (nodes : List KustomizeNode) (st : CrawlSt) (n : KustomizeNode),
      visitedGet st (normalizeUrl url) = some n →
      crawlKustomization (fuel + 1) oracle url rt nodes st
        = some (nodes, st, Except.ok n)) ∧
    ((crawlFromOverlay 5 cycOracle cycUrlA).map
        (fun r => r.map (fun ns => ns.map (fun n => n.id)))
      = some (Except.ok [lit "node-0", lit "node-1"]) ∧
     crawlFromOverlay 50 cycOracle cycUrlA = crawlFromOverlay 5 cycOracle cycUrlA ∧
     (lit "node-0" : Str) ≠ lit "node-1") := by
  constructor
  · intro fuel oracle url rt nodes st n h
    simp only [crawlKustomization, h]
  · refine ⟨by rfl, by rfl, by decide⟩

/-- C4 witness: concrete application of `crawl_memoization_spec` — a
cache lookup hit on the normalized root URL returns the cached node with
no state change. -/
theorem crawl_memoization_spec_witness :
    visitedGet { nodeCounter := 1, visited := [(cycUrlA, cSrcNode)], fetchLog := [] }
        (normalizeUrl cycUrlA) = some cSrcNode ∧
    crawlKustomization 1 cycOracle cycUrlA none []
        { nodeCounter := 1, visited := [(cycUrlA, cSrcNode)], fetchLog := [] }
      = some ([], { nodeCounter := 1, visited := [(cycUrlA, cSrcNode)], fetchLog := [] },
          Except.ok cSrcNode) :=
  ⟨by decide,
   crawl_memoization_spec.1 0 cycOracle cycUrlA none []
     { nodeCounter := 1, visited := [(cycUrlA, cSrcNode)], fetchLog := [] }
     cSrcNode (by decide)⟩

lemma buildEdges_resources_skip (node : KustomizeNode) :
    ∀ (rs : List Str) (m : NodeMap) (edges : List DependencyEdge) (ctr : Nat),
    (∀ r ∈ rs, endsWithS (lit ".yaml") r = true ∨ endsWithS (lit ".yml") r = true) →
    rs.foldl
      (fun (st : NodeMap × List DependencyEdge × Nat) resource =>
        if !(endsWithS (lit ".yaml") resource) && !(endsWithS (lit ".yml") resource) then
          processReference node resource RefKind.resource st.1 st.2.1 st.2.2
        else st)
      (m, edges, ctr) = (m, edges, ctr) := by
  intro rs
  induction rs with
  | nil => intro m edges ctr _; rfl
  | cons r rs ih =>
    intro m edges ctr h
    rw [List.foldl_cons]
    have hcond : (!(endsWithS (lit ".yaml") r) && !(endsWithS (lit ".yml") r)) = false := by
      rcases h r (List.mem_cons_self r rs) with hy | hy <;> rw [hy] <;> simp
    rw [if_neg (by rw [hcond]; simp)]
    exact ih m edges ctr (fun x hx => h x (List.mem_cons_of_mem r hx))

/-- C6 (amended).  In the **Crawler**, a `resources` or `bases` entry
that is a bare YAML manifest (case-insensitive `.yaml`/`.yml`, excluding
`kustomization.yaml`/`.yml`) is skipped by `processResource` — the very
function used for both `resources` and `bases` entries — with no fetch,
no node and no state change.  In the **Graph Builder**, only `resources`
entries are filtered, by the case-sensitive test of merely ending in
`.yaml`/`.yml` (no kustomization exception): such entries produce no
edge and no node; `bases` entries are never filtered and always produce
exactly one edge. -/
theorem yaml_skip_spec :
    (∀ (crawl : Str → Option RefKind → List KustomizeNode → CrawlSt →
        Option (List KustomizeNode × CrawlSt × Except Str KustomizeNode))
       (r parent : Str) (nodes : List KustomizeNode) (st : CrawlSt),
      isYamlFile r = true →
      processResource crawl r parent nodes st = some (nodes, st, Except.ok ())) ∧
    (isYamlFile (lit "deploy.yaml") = true ∧
     isYamlFile (lit "DEPLOY.YAML") = true ∧
     isYamlFile (lit "kustomization.yaml") = false) ∧
    (∀ (node : KustomizeNode) (m : NodeMap) (edges : List DependencyEdge) (ctr : Nat),
      (∀ r ∈ node.kustomizationContent.resources,
        endsWithS (lit ".yaml") r = true ∨ endsWithS (lit ".yml") r = true) →
      node.kustomizationContent.bases = [] →
      node.kustomizationContent.components = [] →
      buildEdgesForNode node m edges ctr = (m, edges, ctr)) ∧
    (∀ (node : KustomizeNode) (m : NodeMap) (edges : List DependencyEdge)
       (ctr : Nat) (b : Str),
      node.kustomizationContent.resources = [] →
      node.kustomizationContent.bases = [b] →
      node.kustomizationContent.components = [] →
      ∃ e, (buildEdgesForNode node m edges ctr).2.1 = edges ++ [e]) := by
  refine ⟨?_, by decide, ?_, ?_⟩
  · intro crawl r parent nodes st h
    unfold processResource
    rw [if_pos h]
  · intro node m edges ctr hres hb hc
    unfold buildEdgesForNode
    rw [buildEdges_resources_skip node _ m edges ctr hres, hb, hc]
    rfl
  · intro node m edges ctr b hres hb hc
    unfold buildEdgesForNode
    rw [hres, hb, hc]
    simp only [List.foldl_nil, List.foldl_cons]
    obtain ⟨e, he, _⟩ := (processReference_spec node b RefKind.base m edges ctr).2.2
    exact ⟨e, he⟩

/-- C6 witness: concrete applications of `yaml_skip_spec` — the crawler
skips `deploy.yaml` with no state change, and a builder node whose only
entries are YAML resources contributes nothing. -/
theorem yaml_skip_spec_witness :
    isYamlFile (lit "deploy.yaml") = true ∧
    processResource (fun _ _ ns s => some (ns, s, Except.error (lit "unused")))
        (lit "deploy.yaml") cycUrlA [] { nodeCounter := 0, visited := [], fetchLog := [] }
      = some ([], { nodeCounter := 0, visited := [], fetchLog := [] }, Except.ok ()) ∧
    buildEdgesForNode
        { cSrcNode with kustomizationContent := { resources := [lit "deploy.yaml"] } }
        [] [] 0 = ([], [], 0) :=
  ⟨by decide,
   yaml_skip_spec.1 (fun _ _ ns s => some (ns, s, Except.error (lit "unused")))
     (lit "deploy.yaml") cycUrlA [] { nodeCounter := 0, visited := [], fetchLog := [] }
     (by decide),
   yaml_skip_spec.2.2.1
     { cSrcNode with kustomizationContent := { resources := [lit "deploy.yaml"] } }
     [] [] 0 (by decide) rfl rfl⟩

/-- C6 counterexample: a `bases` entry that is a bare YAML manifest is
**not** skipped by the Graph Builder — it produces an edge (and a virtual
missing node), contradicting the claim that it contributes no edge. -/
theorem yaml_bases_not_skipped_cex :
    (buildEdgesForNode cBaseNode [(cBaseNode.path, cBaseNode)] [] 0).2.1.length = 1 ∧
    (buildEdgesForNode cBaseNode [(cBaseNode.path, cBaseNode)] [] 0).1.length = 2 := by
  decide

lemma resolveUrl_ok_of_parse {base : Str} (rel : Str) {c : GitUrlComponents}
    (h : parseGitUrl base = Except.ok c) :
    ∃ u, resolveUrl base rel = Except.ok u := by
  unfold resolveUrl
  by_cases hf : isFullUrl rel = true
  · rw [if_pos hf]
    exact ⟨rel, rfl⟩
  · rw [if_neg hf]
    rw [h]
    exact ⟨_, rfl⟩

lemma processResource_ok
    (crawl : Str → Option RefKind → List KustomizeNode → CrawlSt →
      Option (List KustomizeNode × CrawlSt × Except Str KustomizeNode))
    (r parent : Str) (nodes : List KustomizeNode) (st : CrawlSt)
    {c : GitUrlComponents} (h : parseGitUrl parent = Except.ok c) :
    processResource crawl r parent nodes st = none ∨
    ∃ ns s, processResource crawl r parent nodes st = some (ns, s, Except.ok ()) := by
  unfold processResource
  split
  · exact Or.inr ⟨nodes, st, rfl⟩
  · split
    · next e heq =>
        obtain ⟨u, hu⟩ := resolveUrl_ok_of_parse r h
        rw [hu] at heq
        exact absurd heq (by simp)
    · next u heq =>
        split
        · exact Or.inl rfl
        · next ns' st' e heq2 => exact Or.inr ⟨ns', st', rfl⟩

lemma processComponent_ok
    (crawl : Str → Option RefKind → List KustomizeNode → CrawlSt →
      Option (List KustomizeNode × CrawlSt × Except Str KustomizeNode))
    (cp parent : Str) (nodes : List KustomizeNode) (st : CrawlSt)
    {c : GitUrlComponents} (h : parseGitUrl parent = Except.ok c)
    (hcrawl : ∀ u rt ns s res, crawl u rt ns s = some res →
      ∃ n, res.2.2 = Except.ok n) :
    processComponent crawl cp parent nodes st = none ∨
    ∃ ns s, processComponent crawl cp parent nodes st = some (ns, s, Except.ok ()) := by
  unfold processComponent
  split
  · next e heq =>
      obtain ⟨u, hu⟩ := resolveUrl_ok_of_parse cp h
      rw [hu] at heq
      exact absurd heq (by simp)
  · next u heq =>
      split
      · exact Or.inl rfl
      · next ns' st' n heq2 => exact Or.inr ⟨ns', st', rfl⟩
      · next ns' st' e heq2 =>
          obtain ⟨n, hn⟩ := hcrawl u (some RefKind.component) nodes st
            (ns', st', Except.error e) heq2
          simp at hn

lemma childFold_ok
    (proc : Str → List KustomizeNode → CrawlSt →
      Option (List KustomizeNode × CrawlSt × Except Str Unit))
    (hproc : ∀ e ns s, proc e ns s = none ∨
      ∃ ns' s', proc e ns s = some (ns', s', Except.ok ())) :
    ∀ (entries : List Str) (nodes : List KustomizeNode) (st : CrawlSt),
    childFold proc entries nodes st = none ∨
    ∃ ns' s', childFold proc entries nodes st = some (ns', s', Except.ok ()) := by
  have haux : ∀ (entries : List Str)
      (acc : Option (List KustomizeNode × CrawlSt × Except Str Unit)),
      (acc = none ∨ ∃ ns s, acc = some (ns, s, Except.ok ())) →
      (entries.foldl
        (fun acc entry =>
          match acc with
          | none => none
          | some (ns, s, Except.error e) => some (ns, s, Except.error e)
          | some (ns, s, Except.ok _) => proc entry ns s) acc = none ∨
       ∃ ns s, entries.foldl
        (fun acc entry =>
          match acc with
          | none => none
          | some (ns, s, Except.error e) => some (ns, s, Except.error e)
          | some (ns, s, Except.ok _) => proc entry ns s) acc
          = some (ns, s, Except.ok ())) := by
    intro entries
    induction entries with
    | nil => intro acc hacc; exact hacc
    | cons x xs ih =>
      intro acc hacc
      rw [List.foldl_cons]
      rcases hacc with hn | ⟨ns, s, hs⟩
      · subst hn
        exact ih none (Or.inl rfl)
      · subst hs
        exact ih (proc x ns s) (hproc x ns s)
  intro entries nodes st
  exact haux entries (some (nodes, st, Except.ok ())) (Or.inr ⟨nodes, st, rfl⟩)

lemma createNode_ok_parse {url : Str} {k : Kustomization} {rt : Option RefKind}
    {ctr : Nat} {p : KustomizeNode × Nat}
    (h : createNode url k rt ctr = Except.ok p) :
    ∃ c, parseGitUrl url = Except.ok c := by
  unfold createNode at h
  cases hp : parseGitUrl url with
  | error e => rw [hp] at h; exact absurd h (by simp)
  | ok c => exact ⟨c, rfl⟩

/-- The crawl never throws: every completed `crawlKustomization` call
returns an `Except.ok` node, for every oracle, URL and state. -/
lemma crawlKustomization_ok :
    ∀ (fuel : Nat) (oracle : FetchOracle) (url : Str) (rt : Option RefKind)
      (nodes : List KustomizeNode) (st : CrawlSt)
      (res : List KustomizeNode × CrawlSt × Except Str KustomizeNode),
    crawlKustomization fuel oracle url rt nodes st = some res →
    ∃ n, res.2.2 = Except.ok n := by
  intro fuel
  induction fuel with
  | zero =>
    intro oracle url rt nodes st res h
    exact absurd h (by simp [crawlKustomization])
  | succ fuel ih =>
    intro oracle url rt nodes st res h
    simp only [crawlKustomization] at h
    set nurl := normalizeUrl url with hnurl
    cases hvis : visitedGet st nurl with
    | some n =>
      rw [hvis] at h
      simp only at h
      have heq := Option.some.inj h
      exact ⟨_, by rw [← heq]⟩
    | none =>
      rw [hvis] at h
      simp only at h
      cases hp1 : parseGitUrl (ensureKustomizationYaml nurl) with
      | error e =>
        rw [hp1] at h
        simp only at h
        have heq := Option.some.inj h
        exact ⟨_, by rw [← heq]⟩
      | ok comps =>
        rw [hp1] at h
        simp only at h
        cases hor : oracle comps with
        | error e =>
          rw [hor] at h
          simp only at h
          have heq := Option.some.inj h
          exact ⟨_, by rw [← heq]⟩
        | ok kust =>
          rw [hor] at h
          simp only at h
          cases hcn : createNode nurl kust rt
              { st with fetchLog := st.fetchLog ++ [comps] }.nodeCounter with
          | error e =>
            rw [hcn] at h
            simp only at h
            have heq := Option.some.inj h
            exact ⟨_, by rw [← heq]⟩
          | ok p =>
            obtain ⟨node, ctr'⟩ := p
            rw [hcn] at h
            simp only at h
            obtain ⟨c, hparse⟩ := createNode_ok_parse hcn
            by_cases herr : node.error.isSome = true
            · rw [if_pos herr] at h
              have heq := Option.some.inj h
              exact ⟨_, by rw [← heq]⟩
            · rw [if_neg herr] at h
              have hre : ∀ e ns s, processResource
                  (fun u rt ns s => crawlKustomization fuel oracle u rt ns s)
                  e nurl ns s = none ∨
                  ∃ ns' s', processResource
                    (fun u rt ns s => crawlKustomization fuel oracle u rt ns s)
                    e nurl ns s = some (ns', s', Except.ok ()) :=
                fun e ns s => processResource_ok _ e nurl ns s hparse
              have hco : ∀ e ns s, processComponent
                  (fun u rt ns s => crawlKustomization fuel oracle u rt ns s)
                  e nurl ns s = none ∨
                  ∃ ns' s', processComponent
                    (fun u rt ns s => crawlKustomization fuel oracle u rt ns s)
                    e nurl ns s = some (ns', s', Except.ok ()) :=
                fun e ns s => processComponent_ok _ e nurl ns s hparse
                  (fun u rt ns s res hr => ih oracle u rt ns s res hr)
              rcases childFold_ok _ hre node.kustomizationContent.resources _ _ with
                hf1 | ⟨ns2, st2, hf1⟩
              · rw [hf1] at h
                exact absurd h (by simp)
              · rw [hf1] at h
                simp only at h
                rcases childFold_ok _ hre node.kustomizationContent.bases ns2 st2 with
                  hf2 | ⟨ns3, st3, hf2⟩
                · rw [hf2] at h
                  exact absurd h (by simp)
                · rw [hf2] at h
                  simp only at h
                  rcases childFold_ok _ hco node.kustomizationContent.components ns3 st3 with
                    hf3 | ⟨ns4, st4, hf3⟩
                  · rw [hf3] at h
                    exact absurd h (by simp)
                  · rw [hf3] at h
                    simp only at h
                    have heq := Option.some.inj h
                    exact ⟨_, by rw [← heq]⟩

lemma visitedGet_nil (n : Nat) (l : List GitUrlComponents) (k : Str) :
    visitedGet { nodeCounter := n, visited := [], fetchLog := l } k = none := rfl

lemma createErrorNode_error_isSome (url : Str) (t : RefKind) (msg : Str)
    (ctr : Nat) : (createErrorNode url t msg ctr).1.error.isSome = true := by
  unfold createErrorNode
  split <;> rfl

/-- C3 (amended).  The crawl never propagates an error to its caller:
every completed `crawlFromOverlay` returns `Except.ok`; in particular a
failure to parse or to fetch the **root** reference is captured as an
error-carrying node that remains in (and is the sole member of) the
result list, exactly like any non-root failure. -/
theorem crawl_error_policy_spec :
    (∀ (fuel : Nat) (oracle : FetchOracle) (url : Str)
       (r : Except Str (List KustomizeNode)),
      crawlFromOverlay fuel oracle url = some r → ∃ ns, r = Except.ok ns) ∧
    (∀ (fuel : Nat) (oracle : FetchOracle) (url : Str) (e : Str),
      parseGitUrl (ensureKustomizationYaml (normalizeUrl url)) = Except.error e →
      crawlFromOverlay (fuel + 1) oracle url
        = some (Except.ok
            [(createErrorNode (normalizeUrl url) RefKind.resource e 0).1]) ∧
      (createErrorNode (normalizeUrl url) RefKind.resource e 0).1.error.isSome
        = true) ∧
    (∀ (fuel : Nat) (oracle : FetchOracle) (url : Str) (e : Str)
       (comps : GitUrlComponents),
      parseGitUrl (ensureKustomizationYaml (normalizeUrl url)) = Except.ok comps →
      oracle comps = Except.error e →
      crawlFromOverlay (fuel + 1) oracle url
        = some (Except.ok
            [(createErrorNode (normalizeUrl url) RefKind.resource e 0).1]) ∧
      (createErrorNode (normalizeUrl url) RefKind.resource e 0).1.error.isSome
        = true) := by
  refine ⟨?_, ?_, ?_⟩
  · intro fuel oracle url r h
    unfold crawlFromOverlay at h
    split at h
    · exact absurd h (by simp)
    · next nodes st n heq =>
        exact ⟨nodes, (Option.some.inj h).symm⟩
    · next ns st e heq =>
        obtain ⟨n, hn⟩ := crawlKustomization_ok fuel oracle url none [] _ _ heq
        simp at hn
  · intro fuel oracle url e hp
    refine ⟨?_, createErrorNode_error_isSome _ _ _ _⟩
    simp only [crawlFromOverlay, crawlKustomization, visitedGet_nil, hp]
    rfl
  · intro fuel oracle url e comps hp hor
    refine ⟨?_, createErrorNode_error_isSome _ _ _ _⟩
    simp only [crawlFromOverlay, crawlKustomization, visitedGet_nil, hp, hor]
    rfl

/-- C3 witness: concrete application of `crawl_error_policy_spec` — with
an always-failing oracle the root fetch fails, yet the crawl completes
with `Except.ok` and a single error node. -/
theorem crawl_error_policy_spec_witness :
    parseGitUrl (ensureKustomizationYaml (normalizeUrl cycUrlA))
      = Except.ok { provider := Provider.github, host := lit "github.com",
                    owner := lit "o", repo := lit "r", ref := none,
                    path := lit "a/kustomization.yaml" } ∧
    failOracle { provider := Provider.github, host := lit "github.com",
                 owner := lit "o", repo := lit "r", ref := none,
                 path := lit "a/kustomization.yaml" } = Except.error (lit "404") ∧
    (crawlFromOverlay 4 failOracle cycUrlA
        = some (Except.ok
            [(createErrorNode (normalizeUrl cycUrlA) RefKind.resource (lit "404") 0).1]) ∧
     (createErrorNode (normalizeUrl cycUrlA) RefKind.resource (lit "404") 0).1.error.isSome
        = true) :=
  ⟨by rfl, rfl,
   crawl_error_policy_spec.2.2 3 failOracle cycUrlA (lit "404")
     { provider := Provider.github, host := lit "github.com",
       owner := lit "o", repo := lit "r", ref := none,
       path := lit "a/kustomization.yaml" } (by rfl) rfl⟩

/-- C3 counterexample: the root of the crawl cannot be fetched (the
oracle fails on every locator), yet the crawl does **not** fail — it
returns `Except.ok` with one error node carrying the fetch error,
contradicting the claim that a root fetch failure propagates. -/
theorem crawl_root_failure_cex :
    crawlFromOverlay 3 failOracle cycUrlA
      = some (Except.ok
          [(createErrorNode (normalizeUrl cycUrlA) RefKind.resource (lit "404") 0).1]) ∧
    (createErrorNode (normalizeUrl cycUrlA) RefKind.resource (lit "404") 0).1.error
      = some (lit "404") := by
  constructor
  · rfl
  · rfl

lemma not_mem_append {c : Char} {a b : Str} (ha : c ∉ a) (hb : c ∉ b) :
    c ∉ a ++ b := by
  intro h
  rcases List.mem_append.mp h with h | h
  exacts [ha h, hb h]

lemma not_mem_cons {c x : Char} {l : Str} (h1 : c ≠ x) (h2 : c ∉ l) :
    c ∉ x :: l := by
  intro h
  rcases List.mem_cons.mp h with h | h
  exacts [h1 h, h2 h]

lemma isPrefixOf_append_self (a b : Str) : a.isPrefixOf (a ++ b) = true := by
  rw [List.isPrefixOf_iff_prefix]
  exact List.prefix_append a b

lemma splitC_no_sep {sep : Char} : ∀ {s : Str}, sep ∉ s → splitC sep s = [s] := by
  intro s
  induction s with
  | nil => intro _; rfl
  | cons c cs ih =>
    intro h
    have hc : c ≠ sep := fun he => h (he ▸ List.mem_cons_self c cs)
    have hcs : sep ∉ cs := fun hm => h (List.mem_cons_of_mem c hm)
    unfold splitC
    rw [if_neg hc, ih hcs]

lemma splitQ_no_q {s : Str} (h : '?' ∉ s) : splitQ s = (s, none) := by
  unfold splitQ
  rw [splitC_no_sep h]

lemma takeWhile_sep {a : Str} (b : Str) (h : '/' ∉ a) :
    (a ++ '/' :: b).takeWhile (· ≠ '/') = a := by
  induction a with
  | nil => rfl
  | cons c cs ih =>
    have hc : c ≠ '/' := fun he => h (he ▸ List.mem_cons_self c cs)
    have hcs : '/' ∉ cs := fun hm => h (List.mem_cons_of_mem c hm)
    rw [List.cons_append, List.takeWhile_cons, if_pos (decide_eq_true hc), ih hcs]

lemma dropWhile_sep {a : Str} (b : Str) (h : '/' ∉ a) :
    (a ++ '/' :: b).dropWhile (· ≠ '/') = '/' :: b := by
  induction a with
  | nil => rfl
  | cons c cs ih =>
    have hc : c ≠ '/' := fun he => h (he ▸ List.mem_cons_self c cs)
    have hcs : '/' ∉ cs := fun hm => h (List.mem_cons_of_mem c hm)
    rw [List.cons_append, List.dropWhile_cons, if_pos (decide_eq_true hc), ih hcs]

lemma seg_append {a : Str} (b : Str) (h : '/' ∉ a) :
    seg (a ++ '/' :: b) = (a, '/' :: b) := by
  unfold seg
  rw [takeWhile_sep b h, dropWhile_sep b h]

lemma splitScheme_https (rest : Str) :
    splitScheme (lit "https://" ++ rest) = some (lit "https://", rest) := by
  unfold splitScheme
  rw [if_pos (isPrefixOf_append_self _ _)]
  have hd : (lit "https://" ++ rest).drop 8 = rest := List.drop_left (lit "https://") rest
  rw [hd]

lemma githubParse_mkTree (host owner repo bp : Str)
    (hgl : containsSub (lit "gitlab") host = true) (hsh : '/' ∉ host) :
    githubParse (mkTreeUrl host owner repo bp) = none := by
  have hng : ¬((lit "github.com/").isPrefixOf
      (host ++ '/' :: (owner ++ '/' :: (repo ++ '/' :: (lit "-/tree/" ++ bp)))) = true) := by
    intro hpre
    obtain ⟨t, ht⟩ := List.isPrefixOf_iff_prefix.mp hpre
    have e1 : seg (host ++ '/' :: (owner ++ '/' :: (repo ++ '/' :: (lit "-/tree/" ++ bp))))
        = (host, '/' :: (owner ++ '/' :: (repo ++ '/' :: (lit "-/tree/" ++ bp)))) :=
      seg_append _ hsh
    have e2 : seg (lit "github.com/" ++ t) = (lit "github.com", '/' :: t) :=
      seg_append (a := lit "github.com") t (by decide)
    rw [← ht] at e1
    have e3 := e2.symm.trans e1
    have e4 : lit "github.com" = host := congrArg Prod.fst e3
    rw [← e4] at hgl
    exact absurd hgl (by decide)
  unfold githubParse mkTreeUrl
  simp only [splitScheme_https]
  rw [if_neg hng]

lemma gitlabTreeParse_mkTree (host owner repo bp : Str)
    (hgl : containsSub (lit "gitlab") host = true)
    (hsh : '/' ∉ host) (hso : '/' ∉ owner) (hsr : '/' ∉ repo)
    (ho : owner ≠ []) (hr : repo ≠ []) (hbp : bp ≠ []) :
    gitlabTreeParse (mkTreeUrl host owner repo bp) = some (host, owner, repo, bp) := by
  have e1 : seg (host ++ '/' :: (owner ++ '/' :: (repo ++ '/' :: (lit "-/tree/" ++ bp))))
      = (host, '/' :: (owner ++ '/' :: (repo ++ '/' :: (lit "-/tree/" ++ bp)))) :=
    seg_append _ hsh
  have e2 : seg (owner ++ '/' :: (repo ++ '/' :: (lit "-/tree/" ++ bp)))
      = (owner, '/' :: (repo ++ '/' :: (lit "-/tree/" ++ bp))) :=
    seg_append _ hso
  have e3 : seg (repo ++ '/' :: (lit "-/tree/" ++ bp))
      = (repo, '/' :: (lit "-/tree/" ++ bp)) :=
    seg_append _ hsr
  have hpre : (lit "/-/tree/").isPrefixOf ('/' :: (lit "-/tree/" ++ bp)) = true :=
    isPrefixOf_append_self (lit "/-/tree/") bp
  have hdrop : ('/' :: (lit "-/tree/" ++ bp)).drop 8 = bp :=
    List.drop_left (lit "/-/tree/") bp
  unfold gitlabTreeParse mkTreeUrl
  simp only [splitScheme_https, e1, e2, e3, hgl, hpre, hdrop, Bool.not_true,
    Bool.false_eq_true, if_false, Bool.true_or, if_true, if_neg ho, if_neg hr,
    if_neg hbp]

lemma gitlabRepoBaseParse_mkTree (host owner repo bp : Str)
    (hgl : containsSub (lit "gitlab") host = true)
    (hsh : '/' ∉ host) (hso : '/' ∉ owner) (hsr : '/' ∉ repo)
    (ho : owner ≠ []) (hr : repo ≠ []) (hbp : bp ≠ []) :
    gitlabRepoBaseParse (mkTreeUrl host owner repo bp)
      = some (lit "https://" ++ host ++ '/' :: owner ++ '/' :: repo, bp) := by
  have e1 : seg (host ++ '/' :: (owner ++ '/' :: (repo ++ '/' :: (lit "-/tree/" ++ bp))))
      = (host, '/' :: (owner ++ '/' :: (repo ++ '/' :: (lit "-/tree/" ++ bp)))) :=
    seg_append _ hsh
  have e2 : seg (owner ++ '/' :: (repo ++ '/' :: (lit "-/tree/" ++ bp)))
      = (owner, '/' :: (repo ++ '/' :: (lit "-/tree/" ++ bp))) :=
    seg_append _ hso
  have e3 : seg (repo ++ '/' :: (lit "-/tree/" ++ bp))
      = (repo, '/' :: (lit "-/tree/" ++ bp)) :=
    seg_append _ hsr
  have hpre : (lit "/-/tree/").isPrefixOf ('/' :: (lit "-/tree/" ++ bp)) = true :=
    isPrefixOf_append_self (lit "/-/tree/") bp
  have hdrop : ('/' :: (lit "-/tree/" ++ bp)).drop 8 = bp :=
    List.drop_left (lit "/-/tree/") bp
  unfold gitlabRepoBaseParse mkTreeUrl
  simp only [splitScheme_https, e1, e2, e3, hgl, hpre, hdrop, Bool.not_true,
    Bool.false_eq_true, if_false, Bool.true_or, if_true, if_neg ho, if_neg hr,
    if_neg hbp]

lemma no_q_mkTreeUrl {host owner repo bp : Str}
    (h1 : '?' ∉ host) (h2 : '?' ∉ owner) (h3 : '?' ∉ repo) (h4 : '?' ∉ bp) :
    '?' ∉ mkTreeUrl host owner repo bp := by
  unfold mkTreeUrl
  refine not_mem_append (by decide) (not_mem_append h1 ?_)
  refine not_mem_cons (by decide) (not_mem_append h2 ?_)
  refine not_mem_cons (by decide) (not_mem_append h3 ?_)
  exact not_mem_cons (by decide) (not_mem_append (by decide) h4)

/-- C9 (amended).  For a GitLab tree URL carrying no explicit `ref`:
in `parseGitUrl` the heuristic takes the first `min(3, n)` path segments
as the branch when `n ≥ 2` (candidates are tried from most segments down
and the first with at least 2 segments accepted) and the whole remainder
when `n = 1`; `normalizeUrl` instead always takes the first **2**
segments as the branch, re-encoded into a `?ref=` query. -/
theorem branch_heuristic_spec (host owner repo bp : Str)
    (hgl : containsSub (lit "gitlab") host = true)
    (hsh : '/' ∉ host) (hso : '/' ∉ owner) (hsr : '/' ∉ repo)
    (hq1 : '?' ∉ host) (hq2 : '?' ∉ owner) (hq3 : '?' ∉ repo) (hq4 : '?' ∉ bp)
    (ho : owner ≠ []) (hr : repo ≠ []) (hbp : bp ≠ []) :
    parseGitUrl (mkTreeUrl host owner repo bp)
      = Except.ok
          { provider := Provider.gitlab, host := host, owner := owner,
            repo := stripOneSuf (lit ".git") repo,
            ref := some (if 2 ≤ (splitC '/' bp).length
                         then joinC '/' ((splitC '/' bp).take 3) else bp),
            path := if 2 ≤ (splitC '/' bp).length
                    then joinC '/' ((splitC '/' bp).drop 3) else [] } ∧
    normalizeUrl (mkTreeUrl host owner repo bp)
      = lit "https://" ++ host ++ '/' :: owner ++ '/' :: repo ++
          (if joinC '/' ((splitC '/' bp).drop 2) = [] then []
           else '/' :: joinC '/' ((splitC '/' bp).drop 2)) ++
          lit "?ref=" ++ encodeURIComponent (joinC '/' ((splitC '/' bp).take 2)) := by
  have hq := no_q_mkTreeUrl hq1 hq2 hq3 hq4
  constructor
  · unfold parseGitUrl
    rw [splitQ_no_q hq]
    simp only [githubParse_mkTree host owner repo bp hgl hsh,
      gitlabTreeParse_mkTree host owner repo bp hgl hsh hso hsr ho hr hbp]
    unfold gitlabTreeHeuristic
    by_cases hlen : 2 ≤ (splitC '/' bp).length
    · simp only [if_pos hlen]
    · simp only [if_neg hlen]
  · unfold normalizeUrl
    rw [splitQ_no_q hq]
    simp only [gitlabRepoBaseParse_mkTree host owner repo bp hgl hsh hso hsr ho hr hbp]

/-- C9 witness: concrete application of `branch_heuristic_spec` on
`https://gitlab.com/o/r` with an ambiguous four-segment remainder. -/
theorem branch_heuristic_spec_witness :
    parseGitUrl (mkTreeUrl (lit "gitlab.com") (lit "o") (lit "r") (lit "a/b/c/d"))
      = Except.ok
          { provider := Provider.gitlab, host := lit "gitlab.com", owner := lit "o",
            repo := stripOneSuf (lit ".git") (lit "r"),
            ref := some (if 2 ≤ (splitC '/' (lit "a/b/c/d")).length
                         then joinC '/' ((splitC '/' (lit "a/b/c/d")).take 3)
                         else lit "a/b/c/d"),
            path := if 2 ≤ (splitC '/' (lit "a/b/c/d")).length
                    then joinC '/' ((splitC '/' (lit "a/b/c/d")).drop 3) else [] } ∧
    normalizeUrl (mkTreeUrl (lit "gitlab.com") (lit "o") (lit "r") (lit "a/b/c/d"))
      = lit "https://" ++ lit "gitlab.com" ++ '/' :: lit "o" ++ '/' :: lit "r" ++
          (if joinC '/' ((splitC '/' (lit "a/b/c/d")).drop 2) = [] then []
           else '/' :: joinC '/' ((splitC '/' (lit "a/b/c/d")).drop 2)) ++
          lit "?ref=" ++ encodeURIComponent (joinC '/' ((splitC '/' (lit "a/b/c/d")).take 2)) :=
  branch_heuristic_spec (lit "gitlab.com") (lit "o") (lit "r") (lit "a/b/c/d")
    (by decide) (by decide) (by decide) (by decide) (by decide) (by decide)
    (by decide) (by decide) (by decide) (by decide) (by decide)

/-- C9 counterexample: on a four-segment ambiguous remainder,
`normalizeUrl` takes the first **2** segments as the branch, not the
most-segments candidate (3) the claim's heuristic prescribes. -/
theorem branch_heuristic_normalize_cex :
    normalizeUrl (lit "https://gitlab.com/o/r/-/tree/a/b/c/d")
      = lit "https://gitlab.com/o/r/c/d?ref=a%2Fb" ∧
    normalizeUrl (lit "https://gitlab.com/o/r/-/tree/a/b/c/d")
      ≠ lit "https://gitlab.com/o/r/d?ref=a%2Fb%2Fc" := by
  decide

/-- Every vector of `internal/parser/reference_test.go` evaluates as the
Go test expects: relative bare paths are recorded verbatim, the
double-slash and plain HTTP forms recover owner, repo, ref and path, a
missing ref defaults to `main`, the SSH form is converted, and GitLab
subgroups land in the owner. -/
theorem parseReference_go_vectors :
    ParseReference (lit "./base") []
      = Except.ok { refType := ReferenceType.relative, relativePath := lit "./base" }
    ∧ ParseReference (lit "components/foo") []
      = Except.ok { refType := ReferenceType.relative, relativePath := lit "components/foo" }
    ∧ ParseReference (lit "https://github.com/owner/repo//some/overlay?ref=v1.0") []
      = Except.ok { refType := ReferenceType.remote
                    repoInfo := some { provider := Provider.github
                                       host := lit "github.com"
                                       owner := lit "owner"
                                       repo := lit "repo"
                                       ref := lit "v1.0" }
                    path := lit "some/overlay" }
    ∧ ParseReference (lit "https://github.com/owner/repo/deploy/base?ref=main") []
      = Except.ok { refType := ReferenceType.remote
                    repoInfo := some { provider := Provider.github
                                       host := lit "github.com"
                                       owner := lit "owner"
                                       repo := lit "repo"
                                       ref := lit "main" }
                    path := lit "deploy/base" }
    ∧ ParseReference (lit "git@github.com:owner/repo.git//kustomize/base?ref=develop") []
      = Except.ok { refType := ReferenceType.remote
                    repoInfo := some { provider := Provider.github
                                       host := lit "github.com"
                                       owner := lit "owner"
                                       repo := lit "repo"
                                       ref := lit "develop" }
                    path := lit "kustomize/base" }
    ∧ ParseReference (lit "https://gitlab.com/group/subgroup/project//deploy/overlay?ref=main") []
      = Except.ok { refType := ReferenceType.remote
                    repoInfo := some { provider := Provider.gitlab
                                       host := lit "gitlab.com"
                                       owner := lit "group/subgroup"
                                       repo := lit "project"
                                       ref := lit "main" }
                    path := lit "deploy/overlay" } := by
  refine ⟨?_, ?_, ?_, ?_, ?_, ?_⟩ <;> rfl

/-- A value extracted by the ref-query regex is a nonempty character
run. -/
theorem findRefRaw_ne_nil (q : Str) : ∀ v, findRefRaw q = some v → v ≠ [] := by
  induction q with
  | nil => intro v h; simp [findRefRaw] at h
  | cons c rest ih =>
    intro v h
    simp only [findRefRaw] at h
    split at h
    · split at h
      · exact ih v h
      · rename_i hne
        obtain rfl := Option.some.inj h
        exact hne
    · exact ih v h

/-- A string containing a nonempty substring is nonempty. -/
theorem containsSub_ne_nil (sub l : Str) (hs : sub ≠ []) (h : containsSub sub l = true) :
    l ≠ [] := by
  intro hl
  subst hl
  rcases sub with _ | ⟨c, cs⟩
  · exact hs rfl
  · simp only [containsSub, List.isPrefixOf_iff_prefix, decide_eq_true_eq,
      List.prefix_nil] at h
    exact List.noConfusion h

/-- A host recognised by a provider pattern is nonempty. -/
theorem providerOfHost_ne_nil (host : Str) (p : Provider)
    (h : providerOfHost host = some p) : host ≠ [] := by
  unfold providerOfHost at h
  split at h
  · rename_i heq; subst heq; decide
  · split at h
    · rename_i hgl
      exact containsSub_ne_nil (lit "gitlab") host (by decide) hgl
    · exact Option.noConfusion h

/-- The chosen ref (query value or provider default) is nonempty, and it
is the provider default exactly when the query carries no `ref=` value
or carries the non-value `heads`. -/
theorem refGetD_spec (q : Option Str) (p : Provider) :
    (refFromQuery q).getD (defaultBranch p) ≠ []
    ∧ (findRefRaw (q.getD []) = none →
        (refFromQuery q).getD (defaultBranch p) = defaultBranch p)
    ∧ (findRefRaw (q.getD []) = some (lit "heads") →
        (refFromQuery q).getD (defaultBranch p) = defaultBranch p) := by
  rcases q with _ | qs
  · exact ⟨by simp [refFromQuery, Option.getD_none, defaultBranch, lit], fun _ => rfl, fun _ => rfl⟩
  · simp only [refFromQuery, Option.getD_some]
    cases hf : findRefRaw qs with
    | none => simp only [hf]; exact ⟨by simp [refFromQuery, Option.getD_none, defaultBranch, lit], fun _ => rfl, fun _ => rfl⟩
    | some v =>
      simp only [hf]
      by_cases hv : v = lit "heads"
      · simp only [if_pos hv]
        exact ⟨by simp [refFromQuery, Option.getD_none, defaultBranch, lit], fun _ => rfl, fun _ => rfl⟩
      · simp only [if_neg hv, Option.getD_some]
        refine ⟨findRefRaw_ne_nil qs v hf, fun hc => Option.noConfusion hc, fun hc => ?_⟩
        exact absurd (Option.some.inj hc) hv

/-- The head of a `dropWhile` result fails the dropped predicate. -/
theorem head?_dropWhile_not (p : Char → Bool) (l : Str) :
    ∀ a, (l.dropWhile p).head? = some a → p a = false := by
  induction l with
  | nil => intro a h; simp [List.dropWhile] at h
  | cons c cs ih =>
    intro a h
    rw [List.dropWhile_cons] at h
    split at h
    · exact ih a h
    · rename_i hpc
      obtain rfl := Option.some.inj h
      simpa using hpc

/-- A nonempty suffix determines the last element. -/
theorem getLast?_of_suffix (s t : Str) (hs : s <:+ t) (hne : s ≠ []) :
    t.getLast? = s.getLast? := by
  obtain ⟨w, rfl⟩ := hs
  rw [List.getLast?_append]
  cases hl : s.getLast? with
  | none => exact absurd (List.getLast?_eq_none_iff.mp hl) hne
  | some x => rfl

/-- A `trimC` result never ends with the trimmed character. -/
theorem trimC_getLast?_ne (c : Char) (s : Str) : (trimC c s).getLast? ≠ some c := by
  unfold trimC
  rw [List.getLast?_reverse]
  intro h
  have hd := head?_dropWhile_not (· = c) _ c h
  simp at hd

/-- A `trimC` result never starts with the trimmed character. -/
theorem trimC_head?_ne (c : Char) (s : Str) : (trimC c s).head? ≠ some c := by
  unfold trimC
  rw [List.head?_reverse]
  intro h
  have hBne : List.dropWhile (· = c) (s.dropWhile (· = c)).reverse ≠ [] := by
    intro hB
    rw [hB] at h
    exact Option.noConfusion h
  have hsuf := List.dropWhile_suffix (l := (s.dropWhile (· = c)).reverse) (· = c)
  have hlast := getLast?_of_suffix _ _ hsuf hBne
  rw [← hlast, List.getLast?_reverse] at h
  have hd := head?_dropWhile_not (· = c) s c h
  simp at hd

/-- Every successful remote decomposition is fully populated: nonempty
owner, repo, host and ref, the default-ref rule, and a path with no
leading or trailing slash. -/
theorem parseRemoteReference_ok (u : Str) (r : KustomizeReference)
    (h : parseRemoteReference u = Except.ok r) :
    r.refType = ReferenceType.remote ∧
    ∃ info : RepoInfo, r.repoInfo = some info
      ∧ info.owner ≠ [] ∧ info.repo ≠ [] ∧ info.host ≠ [] ∧ info.ref ≠ []
      ∧ (findRefRaw ((splitQ u).2.getD []) = none →
          info.ref = defaultBranch info.provider)
      ∧ (findRefRaw ((splitQ u).2.getD []) = some (lit "heads") →
          info.ref = defaultBranch info.provider)
      ∧ r.path.head? ≠ some '/' ∧ r.path.getLast? ≠ some '/' := by
  simp only [parseRemoteReference] at h
  split at h
  · exact Except.noConfusion h
  · rename_i sch s hsch
    split at h
    · exact Except.noConfusion h
    · rename_i provider hpv
      split at h
      · rename_i rest
        split at h
        · rename_i repoPart path hds
          split at h
          · exact Except.noConfusion h
          · rename_i hguard
            simp only [Bool.or_eq_true, decide_eq_true_eq, List.isEmpty_iff,
              not_or] at hguard
            obtain ⟨⟨-, howner⟩, hrepo⟩ := hguard
            obtain rfl := Except.ok.inj h
            have hrc := refGetD_spec (splitQ u).2 provider
            exact ⟨rfl, _, rfl, howner, hrepo,
              providerOfHost_ne_nil _ _ hpv, hrc.1, hrc.2.1, hrc.2.2,
              trimC_head?_ne '/' path, trimC_getLast?_ne '/' path⟩
        · split at h
          · rename_i r2
            split at h
            · exact Except.noConfusion h
            · rename_i hguard
              simp only [Bool.or_eq_true, List.isEmpty_iff, not_or] at hguard
              obtain ⟨howner, hrepo⟩ := hguard
              obtain rfl := Except.ok.inj h
              have hrc := refGetD_spec (splitQ u).2 provider
              exact ⟨rfl, _, rfl, howner, hrepo,
                providerOfHost_ne_nil _ _ hpv, hrc.1, hrc.2.1, hrc.2.2,
                trimC_head?_ne '/' _, trimC_getLast?_ne '/' _⟩
          · exact Except.noConfusion h
      · exact Except.noConfusion h

/-- C8: for every reference classified as remote, the repository record
is populated (provider, nonempty host, owner, repo and ref), the ref is
the provider default exactly when the query of the canonical HTTP(S)
form carries no `ref=` value, and a `heads` query value is treated as no
ref; the extracted path has no leading or trailing slash. -/
theorem parseReference_remote_spec (s tok : Str) (r : KustomizeReference)
    (h : ParseReference s tok = Except.ok r)
    (hrem : r.refType = ReferenceType.remote) :
    ∃ info : RepoInfo, r.repoInfo = some info
      ∧ info.owner ≠ [] ∧ info.repo ≠ [] ∧ info.host ≠ [] ∧ info.ref ≠ []
      ∧ (findRefRaw ((splitQ (canonicalReference s)).2.getD []) = none →
          info.ref = defaultBranch info.provider)
      ∧ (findRefRaw ((splitQ (canonicalReference s)).2.getD []) = some (lit "heads") →
          info.ref = defaultBranch info.provider)
      ∧ r.path.head? ≠ some '/' ∧ r.path.getLast? ≠ some '/' := by
  unfold ParseReference at h
  split at h
  · exact Except.noConfusion h
  · split at h
    · exact (parseRemoteReference_ok _ r h).2
    · obtain rfl := Except.ok.inj h
      exact ReferenceType.noConfusion hrem

/-- C8 witness: the no-ref Go test vector parses to `cParsedRemote`, and
the remote guarantee holds of it with the ref defaulted to `main`. -/
theorem parseReference_remote_spec_witness :
    ParseReference (lit "https://github.com/owner/repo/deploy/base") [] =
      Except.ok cParsedRemote
    ∧ cParsedRemote.refType = ReferenceType.remote
    ∧ ∃ info : RepoInfo, cParsedRemote.repoInfo = some info
      ∧ info.owner ≠ [] ∧ info.repo ≠ [] ∧ info.host ≠ [] ∧ info.ref ≠ []
      ∧ (findRefRaw ((splitQ (canonicalReference
            (lit "https://github.com/owner/repo/deploy/base"))).2.getD []) = none →
          info.ref = defaultBranch info.provider)
      ∧ (findRefRaw ((splitQ (canonicalReference
            (lit "https://github.com/owner/repo/deploy/base"))).2.getD []) =
            some (lit "heads") →
          info.ref = defaultBranch info.provider)
      ∧ cParsedRemote.path.head? ≠ some '/'
      ∧ cParsedRemote.path.getLast? ≠ some '/' :=
  ⟨rfl, rfl,
    parseReference_remote_spec (lit "https://github.com/owner/repo/deploy/base") []
      cParsedRemote rfl rfl⟩

end Kustomap

